import Mathlib

/-!
Bloom filter (`bloom.go`): shallow embedding and verified properties.

The Go package keeps a byte slice `keys` and sets / tests one bit per probe.
The embedding below follows `bloom.go` function by function.

* `uint64` values are natural numbers, reduced modulo `2 ^ 64` wherever the Go
  arithmetic can wrap.
* a `[]byte` is a `List Nat`; an index that is out of range makes the operation
  return `none` (the Go run-time panic).
* the mutex only matters for interleavings of several goroutines; in this
  sequential embedding `Lock`/`Unlock` leave the state untouched, so the
  `lock` field is dropped and `concurrent` is kept as the flag it is.
* the two things that come from outside the repository are parameters:
  `sum128` is `murmur3`'s 128-bit digest of a byte sequence, and `L` is the
  inexact branch of `math.Log2` followed by `math.Ceil` and the conversion to
  `uint64`. The theorems hold for every value of them; `murmur3Sum128` is the
  algorithm of the imported package, on which concrete runs are evaluated.
* the little-endian writers of `encoding/binary`, also outside the repository,
  are modelled by `putUint16`, `putUint32` and `putUint64`; a Go string is
  given as its byte sequence.
-/

namespace Bloom

/-- Number of values of a Go `uint64`. -/
def u64 : Nat := 2 ^ 64

/-- Constant `mod7 = 1<<3 - 1` of `bloom.go`. -/
def mod7 : Nat := (1 <<< 3) - 1

/-- Constant `bitPerByte = 8` of `bloom.go`. -/
def bitPerByte : Nat := 8

/-- The struct `Filter` of `bloom.go` (without the mutex pointer). -/
structure Filter where
  concurrent : Bool
  m : Nat
  n : Nat
  log2m : Nat
  k : Nat
  keys : List Nat
deriving DecidableEq

/-- Binary exponent of a positive integer below `2 ^ fuel` (the position of its
highest set bit): `math.Frexp` returns this number plus one. -/
def exponent : Nat → Nat → Nat
  | 0, _ => 0
  | fuel + 1, x => if x < 2 then 0 else exponent fuel (x / 2) + 1

/-- Go conversion `float64(size)` of a `uint64`: the nearest double, ties to the
even significand. The result is returned as the exact integer the double
denotes (every double of magnitude at least `2 ^ 53` is an integer). -/
def toFloat64 (size : Nat) : Nat :=
  if size < 2 ^ 53 then size
  else
    let e := exponent 64 size - 52
    let q := size / 2 ^ e
    let r := size % 2 ^ e
    let half := 2 ^ (e - 1)
    let q1 := if half < r ∨ (half = r ∧ q % 2 = 1) then q + 1 else q
    q1 * 2 ^ e

/-- The double `x` is an exact power of two: `math.Frexp` returns the fraction
`0.5`. -/
def isPowerOfTwo (x : Nat) : Bool := x != 0 && x == 2 ^ exponent 65 x

/-- The expression `uint64(math.Ceil(math.Log2(float64(size))))` of `New`.
`math.Log2` answers exactly on exact powers of two (`frac == 0.5` gives
`float64(exp - 1)`); on every other double it evaluates
`Log(frac)*(1/Ln2) + float64(exp)` in floating point, and `L x` stands for
that value after `math.Ceil` and the conversion to `uint64`. -/
def ceilLog2 (L : Nat → Nat) (size : Nat) : Nat :=
  let x := toFloat64 size
  if isPowerOfTwo x then exponent 65 x else L x % u64

/-- Go shift `a << s` on 64-bit words: a count of 64 or more gives `0`. -/
def shl64 (a s : Nat) : Nat := if s < 64 then (a <<< s) % u64 else 0

/-- The bound `maxAlloc` of the Go runtime on 64-bit platforms with 48 address
bits: `makeslice` panics with "len out of range" when the requested bytes
exceed it. -/
def maxAlloc : Nat := 2 ^ 48

/-- The function `New` of `bloom.go`. `make([]byte, 1<<log2)` takes its length
as an `int`: the bit pattern `2 ^ 63` is a negative length and panics, a
length above `maxAlloc` panics as well, and a shift count of 64 or more gives
length `0`. -/
def New (L : Nat → Nat) (size k : Nat) (race : Bool) : Option Filter :=
  let log2 := ceilLog2 L size
  let len := shl64 1 log2
  if 2 ^ 63 ≤ len ∨ maxAlloc < len then none
  else some
    { m := shl64 1 log2
      n := 0
      log2m := log2
      k := k
      keys := List.replicate len 0
      concurrent := race }

/-- The method `(f *Filter) location(h)`: byte index and bit offset. The
subtraction `f.m - 1` is on `uint64`. -/
def Filter.location (f : Filter) (h : Nat) : Nat × Nat :=
  let slot := (h / bitPerByte) &&& ((f.m + u64 - 1) % u64)
  let mod := h &&& mod7
  (slot, mod)

/-- The function `location(h, i)`: the `i`-th probe from the four base hashes,
in `uint64` arithmetic. -/
def location (h : List Nat) (i : Nat) : Option Nat :=
  match h[i &&& 1]?, h[(2 + (((i + (i &&& 1)) % u64) &&& 3) / 2) % u64]? with
  | some a, some b => some ((a + (i * b) % u64) % u64)
  | _, _ => none

/-- The function `baseHash`: the digest of `data` and, after one more written
byte `1`, the digest of `data ++ [1]`. -/
def baseHash (sum128 : List Nat → Nat × Nat) (data : List Nat) : List Nat :=
  let a1 := [1]
  let v12 := sum128 data
  let v34 := sum128 (data ++ a1)
  [v12.1 % u64, v12.2 % u64, v34.1 % u64, v34.2 % u64]

/-- The loop `for i := uint64(0); i < f.k; i++ { ... f.keys[slot] |= 1 << mod }`
of `Add` and `AddBatch`; the first argument counts the iterations left. -/
def addLoop (h : List Nat) : Nat → Nat → Filter → Option Filter
  | 0, _, f => some f
  | r + 1, i, f =>
    match location h i with
    | none => none
    | some loc =>
      match f.keys[(f.location loc).1]? with
      | none => none
      | some b =>
        addLoop h r (i + 1)
          { f with keys := f.keys.set (f.location loc).1
                      (b ||| (1 <<< (f.location loc).2) % 256) }

/-- The method `Add`. -/
def Add (sum128 : List Nat → Nat × Nat) (f : Filter) (data : List Nat) :
    Option Filter :=
  let h := baseHash sum128 data
  match addLoop h f.k 0 f with
  | none => none
  | some f1 => some { f1 with n := (f1.n + 1) % u64 }

/-- The loop of `Test`, with its early `return false`. -/
def testLoop (h : List Nat) (f : Filter) : Nat → Nat → Option Bool
  | 0, _ => some true
  | r + 1, i =>
    match location h i with
    | none => none
    | some loc =>
      match f.keys[(f.location loc).1]? with
      | none => none
      | some b =>
        if b &&& ((1 <<< (f.location loc).2) % 256) = 0 then some false
        else testLoop h f r (i + 1)

/-- The method `Test`. -/
def Test (sum128 : List Nat → Nat × Nat) (f : Filter) (data : List Nat) :
    Option Bool :=
  let h := baseHash sum128 data
  testLoop h f f.k 0

/-- The method `AddBatch`: the body of `Add` once per element, in order. -/
def AddBatch (sum128 : List Nat → Nat × Nat) (f : Filter) :
    List (List Nat) → Option Filter
  | [] => some f
  | data :: rest =>
    let h := baseHash sum128 data
    match addLoop h f.k 0 f with
    | none => none
    | some f1 => AddBatch sum128 { f1 with n := (f1.n + 1) % u64 } rest

/-- The method `Reset`: `f.keys[i] &= 0` for every index, then `f.n = 0`. -/
def Reset (f : Filter) : Filter :=
  { f with keys := f.keys.map (fun b => b &&& 0), n := 0 }

/-- The loop `for i := 0; i < len(f.keys); i++ { f.keys[i] |= g.keys[i] }` of
`MergeInPlace`; the first argument counts the iterations left. -/
def mergeLoop (g : Filter) : Nat → Nat → Filter → Option Filter
  | 0, _, f => some f
  | r + 1, i, f =>
    match f.keys[i]?, g.keys[i]? with
    | some a, some b => mergeLoop g r (i + 1) { f with keys := f.keys.set i (a ||| b) }
    | _, _ => none

/-- Text of `fmt.Errorf("m's don't match: %d != %d", a, b)`. -/
def mMismatch (a b : Nat) : String :=
  "m\x27s don\x27t match: " ++ toString a ++ " != " ++ toString b

/-- Text of `fmt.Errorf("k's don't match: %d != %d", a, b)`. -/
def kMismatch (a b : Nat) : String :=
  "k\x27s don\x27t match: " ++ toString a ++ " != " ++ toString b

/-- Text of the third error of `MergeInPlace`. -/
def concurrentSource : String := "merging concurrent filter is not support"

/-- The method `MergeInPlace`: the receiver after the call together with the
returned error (`none` is Go's `nil`); the outer `none` is a panic. -/
def MergeInPlace (f g : Filter) : Option (Filter × Option String) :=
  if f.m ≠ g.m then some (f, some (mMismatch f.m g.m))
  else if f.k ≠ g.k then some (f, some (kMismatch f.m g.m))
  else if g.concurrent then some (f, some concurrentSource)
  else
    match mergeLoop g f.keys.length 0 f with
    | none => none
    | some f1 => some (f1, none)

/-- The method `Cap`. -/
def Cap (f : Filter) : Nat := f.m

/-- The method `KeySize`. -/
def KeySize (f : Filter) : Nat := f.n

/-! ## Vocabulary of the statements -/

/-- Bit `j` of byte `slot` of the array is set (an index outside the array has
no set bit). -/
def bitAt (f : Filter) (slot j : Nat) : Bool :=
  match f.keys[slot]? with
  | some b => b.testBit j
  | none => false

/-- The bit addressed by the `i`-th probe of the base hashes `h` is set. -/
def probeAt (h : List Nat) (f : Filter) (i : Nat) : Bool :=
  match location h i with
  | some loc => bitAt f (f.location loc).1 (f.location loc).2
  | none => false

/-- The bit addressed by the `i`-th probe of the key `data` is set. -/
def probeBit (sum128 : List Nat → Nat × Nat) (f : Filter) (data : List Nat)
    (i : Nat) : Bool :=
  probeAt (baseHash sum128 data) f i

/-- Every bit set in `f` is set in `f1`. -/
def BitsLE (f f1 : Filter) : Prop :=
  ∀ slot j, bitAt f slot j = true → bitAt f1 slot j = true

/-- Invariants of the data model: the capacity is the power of two recorded in
`log2m`, it fits a `uint64`, and the array has one byte per unit of `m`. -/
def Filter.WF (f : Filter) : Prop :=
  f.m = 2 ^ f.log2m ∧ f.log2m < 64 ∧ f.keys.length = f.m

instance (f : Filter) : Decidable f.WF := by
  unfold Filter.WF; exact inferInstance

/-- One call of the mutating API. -/
inductive Op where
  | add (data : List Nat)
  | addBatch (dataArr : List (List Nat))
  | reset
  | merge (g : Filter)

/-- Effect of one call on the receiver; the error of `MergeInPlace` is
dropped, the receiver is kept. -/
def step (sum128 : List Nat → Nat × Nat) (f : Filter) : Op → Option Filter
  | Op.add data => Add sum128 f data
  | Op.addBatch dataArr => AddBatch sum128 f dataArr
  | Op.reset => some (Reset f)
  | Op.merge g => (MergeInPlace f g).map Prod.fst

/-- A sequence of calls, left to right. -/
def run (sum128 : List Nat → Nat × Nat) (f : Filter) : List Op → Option Filter
  | [] => some f
  | op :: ops =>
    match step sum128 f op with
    | none => none
    | some f1 => run sum128 f1 ops

/-- A stand-in for the digest on which examples are evaluated: the first two
bytes of the input (absent bytes count as `0`). -/
def toySum128 (data : List Nat) : Nat × Nat := (data.getD 0 0, data.getD 1 0)

/-- A stand-in for the inexact branch of `math.Log2`, for examples whose size is
an exact power of two (the branch is then never taken). -/
def noLog : Nat → Nat := fun _ => 0

/-- Example filter: `New(4, 2, false)` after `Add` of the key `[0, 0]` under
`toySum128`. -/
def sampleA : Filter :=
  { concurrent := false, m := 4, n := 1, log2m := 2, k := 2, keys := [1, 0, 0, 0] }

/-- Example filter: `New(4, 2, false)` after `Add` of the key `[16, 8]` under
`toySum128`. -/
def sampleB : Filter :=
  { concurrent := false, m := 4, n := 1, log2m := 2, k := 2, keys := [0, 0, 1, 0] }

/-- Example filter: `sampleA` after `MergeInPlace(sampleB)`. -/
def sampleAB : Filter :=
  { concurrent := false, m := 4, n := 1, log2m := 2, k := 2, keys := [1, 0, 1, 0] }

/-- Example filter: the result of `New(4, 2, false)`. -/
def sampleNew : Filter :=
  { concurrent := false, m := 4, n := 0, log2m := 2, k := 2, keys := [0, 0, 0, 0] }

/-- Example filter: `sampleNew` after an add, a reset, a merge and a batch
add. -/
def sampleRun : Filter :=
  { concurrent := false, m := 4, n := 1, log2m := 2, k := 2, keys := [0, 0, 5, 0] }

/-- Example filter with the concurrency flag set. -/
def sampleC : Filter :=
  { concurrent := true, m := 4, n := 1, log2m := 2, k := 2, keys := [0, 0, 1, 0] }

/-- Example filter with three hash functions, otherwise like `sampleA`. -/
def sampleK : Filter :=
  { concurrent := false, m := 4, n := 1, log2m := 2, k := 3, keys := [1, 0, 0, 0] }

/-! ## Typed wrappers (`bloom.go`, `util.go`) -/

/-- The function `str2Bytes` of `util.go`: the bytes of the string, which is
given here as its byte sequence. -/
def str2Bytes (s : List Nat) : List Nat := s

/-- Modelled from the spec: `binary.LittleEndian.PutUint16` of the Go standard
library (outside the repository) writes the little-endian representation,
`b[0] = byte(v)` and `b[1] = byte(v >> 8)`. -/
def putUint16 (b : List Nat) (v : Nat) : List Nat :=
  (b.set 0 (v % 256)).set 1 ((v >>> 8) % 256)

/-- Modelled from the spec: `binary.LittleEndian.PutUint32` of the Go standard
library writes the four little-endian bytes of `v`. -/
def putUint32 (b : List Nat) (v : Nat) : List Nat :=
  (((b.set 0 (v % 256)).set 1 ((v >>> 8) % 256)).set 2 ((v >>> 16) % 256)).set 3
    ((v >>> 24) % 256)

/-- Modelled from the spec: `binary.LittleEndian.PutUint64` of the Go standard
library writes the eight little-endian bytes of `v`. -/
def putUint64 (b : List Nat) (v : Nat) : List Nat :=
  (((((((b.set 0 (v % 256)).set 1 ((v >>> 8) % 256)).set 2 ((v >>> 16) % 256)).set 3
    ((v >>> 24) % 256)).set 4 ((v >>> 32) % 256)).set 5 ((v >>> 40) % 256)).set 6
    ((v >>> 48) % 256)).set 7 ((v >>> 56) % 256)

/-- The function `uint16ToBytes` of `util.go`. -/
def uint16ToBytes (num : Nat) : List Nat :=
  let data := List.replicate 2 0
  putUint16 data num

/-- The function `uint32ToBytes` of `util.go`. -/
def uint32ToBytes (num : Nat) : List Nat :=
  let data := List.replicate 4 0
  putUint32 data num

/-- The function `uint64ToBytes` of `util.go`. -/
def uint64ToBytes (num : Nat) : List Nat :=
  let data := List.replicate 8 0
  putUint64 data num

/-- The method `AddString`. -/
def AddString (sum128 : List Nat → Nat × Nat) (f : Filter) (s : List Nat) : Option Filter :=
  let data := str2Bytes s
  Add sum128 f data

/-- The method `TestString`. -/
def TestString (sum128 : List Nat → Nat × Nat) (f : Filter) (s : List Nat) : Option Bool :=
  let data := str2Bytes s
  Test sum128 f data

/-- The method `AddUInt16`. -/
def AddUInt16 (sum128 : List Nat → Nat × Nat) (f : Filter) (num : Nat) : Option Filter :=
  let data := uint16ToBytes num
  Add sum128 f data

/-- The method `TestUInt16`. -/
def TestUInt16 (sum128 : List Nat → Nat × Nat) (f : Filter) (num : Nat) : Option Bool :=
  let data := uint16ToBytes num
  Test sum128 f data

/-- The method `AddUInt32`. -/
def AddUInt32 (sum128 : List Nat → Nat × Nat) (f : Filter) (num : Nat) : Option Filter :=
  let data := uint32ToBytes num
  Add sum128 f data

/-- The method `TestUInt32`. -/
def TestUInt32 (sum128 : List Nat → Nat × Nat) (f : Filter) (num : Nat) : Option Bool :=
  let data := uint32ToBytes num
  Test sum128 f data

/-- The method `AddUInt64`. -/
def AddUInt64 (sum128 : List Nat → Nat × Nat) (f : Filter) (num : Nat) : Option Filter :=
  let data := uint64ToBytes num
  Add sum128 f data

/-- The method `TestUInt64`. -/
def TestUInt64 (sum128 : List Nat → Nat × Nat) (f : Filter) (num : Nat) : Option Bool :=
  let data := uint64ToBytes num
  Test sum128 f data

/-- The loop of the typed batch methods: `data = append(data, enc(numArr[i]))`
for every index, in order. -/
def encodeAll (enc : Nat → List Nat) : List Nat → List (List Nat)
  | [] => []
  | num :: rest => enc num :: encodeAll enc rest

/-- The method `AddUint16Batch`. -/
def AddUint16Batch (sum128 : List Nat → Nat × Nat) (f : Filter) (numArr : List Nat) :
    Option Filter :=
  AddBatch sum128 f (encodeAll uint16ToBytes numArr)

/-- The method `AddUint32Batch`. -/
def AddUint32Batch (sum128 : List Nat → Nat × Nat) (f : Filter) (numArr : List Nat) :
    Option Filter :=
  AddBatch sum128 f (encodeAll uint32ToBytes numArr)

/-- The method `AddUin64Batch` (spelled so in `bloom.go`). -/
def AddUin64Batch (sum128 : List Nat → Nat × Nat) (f : Filter) (numArr : List Nat) :
    Option Filter :=
  AddBatch sum128 f (encodeAll uint64ToBytes numArr)

/-- One call of any mutating method of the API. -/
inductive Call where
  | add (data : List Nat)
  | addString (s : List Nat)
  | addUInt16 (num : Nat)
  | addUInt32 (num : Nat)
  | addUInt64 (num : Nat)
  | addBatch (dataArr : List (List Nat))
  | addUint16Batch (numArr : List Nat)
  | addUint32Batch (numArr : List Nat)
  | addUin64Batch (numArr : List Nat)
  | reset
  | mergeInPlace (g : Filter)

/-- Effect of one call on the receiver (the error of `MergeInPlace` is
dropped). -/
def call (sum128 : List Nat → Nat × Nat) (f : Filter) : Call → Option Filter
  | Call.add data => Add sum128 f data
  | Call.addString s => AddString sum128 f s
  | Call.addUInt16 num => AddUInt16 sum128 f num
  | Call.addUInt32 num => AddUInt32 sum128 f num
  | Call.addUInt64 num => AddUInt64 sum128 f num
  | Call.addBatch dataArr => AddBatch sum128 f dataArr
  | Call.addUint16Batch numArr => AddUint16Batch sum128 f numArr
  | Call.addUint32Batch numArr => AddUint32Batch sum128 f numArr
  | Call.addUin64Batch numArr => AddUin64Batch sum128 f numArr
  | Call.reset => some (Reset f)
  | Call.mergeInPlace g => (MergeInPlace f g).map Prod.fst

/-- A sequence of calls of the whole API, left to right. -/
def runCalls (sum128 : List Nat → Nat × Nat) (f : Filter) : List Call → Option Filter
  | [] => some f
  | c :: cs =>
    match call sum128 f c with
    | none => none
    | some f1 => runCalls sum128 f1 cs

/-- The same call through the byte API: typed calls become `Add` / `AddBatch`
of the encoded values. -/
def Call.toOp : Call → Op
  | Call.add data => Op.add data
  | Call.addString s => Op.add (str2Bytes s)
  | Call.addUInt16 num => Op.add (uint16ToBytes num)
  | Call.addUInt32 num => Op.add (uint32ToBytes num)
  | Call.addUInt64 num => Op.add (uint64ToBytes num)
  | Call.addBatch dataArr => Op.addBatch dataArr
  | Call.addUint16Batch numArr => Op.addBatch (encodeAll uint16ToBytes numArr)
  | Call.addUint32Batch numArr => Op.addBatch (encodeAll uint32ToBytes numArr)
  | Call.addUin64Batch numArr => Op.addBatch (encodeAll uint64ToBytes numArr)
  | Call.reset => Op.reset
  | Call.mergeInPlace g => Op.merge g

/-- The merge arguments of a sequence of calls have one byte per unit of their
capacity, as every filter returned by `New` has. -/
def argsSized : List Call → Prop
  | [] => True
  | Call.mergeInPlace g :: cs => g.keys.length = g.m ∧ argsSized cs
  | _ :: cs => argsSized cs

/-! ## The digest of the imported package `github.com/spaolacci/murmur3` -/

/-- Rotation `bits.RotateLeft64(x, r)` of a 64-bit word, for `r` between 1 and
63. -/
def rotl64 (x r : Nat) : Nat := ((x <<< r) % u64) ||| (x >>> (64 - r))

/-- Constant `c1_128` of the murmur3 package. -/
def c1_128 : Nat := 0x87c37b91114253d5

/-- Constant `c2_128` of the murmur3 package. -/
def c2_128 : Nat := 0x4cf5ad432745937f

/-- The finalisation mix `fmix64` of the murmur3 package. -/
def fmix64 (k : Nat) : Nat :=
  let k1 := k ^^^ (k >>> 33)
  let k2 := (k1 * 0xff51afd7ed558ccd) % u64
  let k3 := k2 ^^^ (k2 >>> 33)
  let k4 := (k3 * 0xc4ceb9fe1a85ec53) % u64
  k4 ^^^ (k4 >>> 33)

/-- Little-endian value of at most eight bytes. -/
def leBytes : List Nat → Nat
  | [] => 0
  | b :: bs => b % 256 + 256 * leBytes bs

/-- The scrambling of a first half block: `k1 *= c1; k1 = rotl(k1, 31); k1 *= c2`. -/
def mixK1 (k1 : Nat) : Nat := (rotl64 ((k1 * c1_128) % u64) 31 * c2_128) % u64

/-- The scrambling of a second half block: `k2 *= c2; k2 = rotl(k2, 33); k2 *= c1`. -/
def mixK2 (k2 : Nat) : Nat := (rotl64 ((k2 * c2_128) % u64) 33 * c1_128) % u64

/-- The block loop `bmix` of the murmur3 package over the first `nblocks`
blocks of 16 bytes, from the state `(h1, h2)`. -/
def bmix : Nat → List Nat → Nat × Nat → Nat × Nat
  | 0, _, h => h
  | nblocks + 1, data, h =>
    let k1 := leBytes (data.take 8)
    let k2 := leBytes ((data.drop 8).take 8)
    let h1a := rotl64 (h.1 ^^^ mixK1 k1) 27
    let h1b := (((h1a + h.2) % u64) * 5 + 0x52dce729) % u64
    let h2a := rotl64 (h.2 ^^^ mixK2 k2) 31
    let h2b := (((h2a + h1b) % u64) * 5 + 0x38495ab5) % u64
    bmix nblocks (data.drop 16) (h1b, h2b)

/-- The digest `murmur3.New128()` (seed 0) after `Write(data)`, read by
`Sum128()`: MurmurHash3 x64 128 of `data`. The package is imported by
`bloom.go` and is not part of the repository; this is its published
algorithm. -/
def murmur3Sum128 (data : List Nat) : Nat × Nat :=
  let nblocks := data.length / 16
  let h := bmix nblocks data (0, 0)
  let tail := data.drop (16 * nblocks)
  let h2a := if 8 < tail.length then h.2 ^^^ mixK2 (leBytes (tail.drop 8)) else h.2
  let h1a := if 0 < tail.length then h.1 ^^^ mixK1 (leBytes (tail.take 8)) else h.1
  let h1b := h1a ^^^ data.length
  let h2b := h2a ^^^ data.length
  let h1c := (h1b + h2b) % u64
  let h2c := (h2b + h1c) % u64
  let h1d := fmix64 h1c
  let h2d := fmix64 h2c
  let h1e := (h1d + h2d) % u64
  let h2e := (h2d + h1e) % u64
  (h1e, h2e)

/-- Example filter: `New(4, 2, false)` after `Add` of the one-byte key `[0]`
under murmur3. -/
def realA : Filter :=
  { concurrent := false, m := 4, n := 1, log2m := 2, k := 2, keys := [128, 0, 32, 0] }

/-- Example filter: `New(4, 2, false)` after `Add` of the one-byte key `[12]`
under murmur3. -/
def realB : Filter :=
  { concurrent := false, m := 4, n := 1, log2m := 2, k := 2, keys := [0, 32, 2, 0] }

/-- Example filter: `realA` after `MergeInPlace(realB)`. -/
def realAB : Filter :=
  { concurrent := false, m := 4, n := 1, log2m := 2, k := 2, keys := [128, 32, 34, 0] }

/-- Example filter: the result of `New(2^64 - 1, 1, false)`, of capacity `0`. -/
def zeroCap : Filter :=
  { concurrent := false, m := 0, n := 0, log2m := 64, k := 1, keys := [] }

/-! ## Bytes and bits -/

theorem mod7_eq : mod7 = 7 := by decide

theorem location_snd_le (f : Filter) (loc : Nat) : (f.location loc).2 ≤ 7 := by
  show loc &&& mod7 ≤ 7
  rw [mod7_eq]; exact Nat.and_le_right

theorem mask_eq (f : Filter) (loc : Nat) :
    (1 <<< (f.location loc).2) % 256 = 2 ^ (f.location loc).2 := by
  have h := location_snd_le f loc
  rw [Nat.one_shiftLeft]
  apply Nat.mod_eq_of_lt
  calc 2 ^ (f.location loc).2 ≤ 2 ^ 7 := Nat.pow_le_pow_right (by decide) h
    _ < 256 := by decide

theorem and_two_pow_eq_zero (b j : Nat) : b &&& 2 ^ j = 0 ↔ b.testBit j = false := by
  rw [Nat.and_two_pow]
  cases b.testBit j <;> simp

theorem location_fst_lt (f : Filter) (loc : Nat) (h0 : 0 < f.m) (h1 : f.m < u64) :
    (f.location loc).1 < f.m := by
  show (loc / bitPerByte) &&& ((f.m + u64 - 1) % u64) < f.m
  have h2 : (f.m + u64 - 1) % u64 = f.m - 1 := by
    have : f.m + u64 - 1 = (f.m - 1) + u64 := by omega
    rw [this, Nat.add_mod_right]
    exact Nat.mod_eq_of_lt (by omega)
  rw [h2]
  have := @Nat.and_le_right (loc / bitPerByte) (f.m - 1)
  omega

theorem location_congr (f f1 : Filter) (hm : f1.m = f.m) (loc : Nat) :
    f1.location loc = f.location loc := by
  simp [Filter.location, hm]

theorem baseHash_length (sum128 : List Nat → Nat × Nat) (data : List Nat) :
    (baseHash sum128 data).length = 4 := rfl

theorem location_isSome (h : List Nat) (hh : h.length = 4) (i : Nat) :
    ∃ loc, location h i = some loc := by
  have h1 : i &&& 1 < h.length := by
    have := @Nat.and_le_right i 1
    omega
  have h2 : (2 + (((i + (i &&& 1)) % u64) &&& 3) / 2) % u64 < h.length := by
    have := @Nat.and_le_right ((i + (i &&& 1)) % u64) 3
    have h3 : 2 + (((i + (i &&& 1)) % u64) &&& 3) / 2 < 4 := by omega
    have : (2 + (((i + (i &&& 1)) % u64) &&& 3) / 2) % u64
        ≤ 2 + (((i + (i &&& 1)) % u64) &&& 3) / 2 := Nat.mod_le _ _
    omega
  unfold location
  rw [List.getElem?_eq_getElem h1, List.getElem?_eq_getElem h2]
  exact ⟨_, rfl⟩

theorem BitsLE.refl (f : Filter) : BitsLE f f := fun _ _ h => h

theorem BitsLE.trans {f g h : Filter} (h1 : BitsLE f g) (h2 : BitsLE g h) :
    BitsLE f h := fun s j hb => h2 s j (h1 s j hb)

theorem bitAt_set_or (f : Filter) (slot b x s j : Nat)
    (hb : f.keys[slot]? = some b) (h : bitAt f s j = true) :
    bitAt { f with keys := f.keys.set slot (b ||| x) } s j = true := by
  unfold bitAt at h ⊢
  simp only [List.getElem?_set]
  by_cases hs : slot = s
  · subst hs
    have hlt : slot < f.keys.length := by
      rcases List.getElem?_eq_some.mp hb with ⟨hlt, _⟩
      exact hlt
    rw [hb] at h
    simp only [if_pos rfl, if_pos hlt, Nat.testBit_or]
    simp only at h
    simp [h]
  · simp only [if_neg hs]
    exact h

theorem bitAt_set_self (f : Filter) (slot b j : Nat)
    (hb : f.keys[slot]? = some b) :
    bitAt { f with keys := f.keys.set slot (b ||| 2 ^ j) } slot j = true := by
  have hlt : slot < f.keys.length := by
    rcases List.getElem?_eq_some.mp hb with ⟨hlt, _⟩
    exact hlt
  unfold bitAt
  simp [List.getElem?_set, hlt]

/-! ## The probe loops -/

theorem addLoop_props (h : List Nat) :
    ∀ (r i : Nat) (f f1 : Filter), addLoop h r i f = some f1 →
      f1.m = f.m ∧ f1.n = f.n ∧ f1.log2m = f.log2m ∧ f1.k = f.k ∧
      f1.concurrent = f.concurrent ∧ f1.keys.length = f.keys.length ∧
      BitsLE f f1 ∧ ∀ j, j < r → probeAt h f1 (i + j) = true := by
  intro r
  induction r with
  | zero =>
    intro i f f1 hf
    simp only [addLoop, Option.some.injEq] at hf
    subst hf
    exact ⟨rfl, rfl, rfl, rfl, rfl, rfl, BitsLE.refl _, fun j hj => absurd hj (Nat.not_lt_zero j)⟩
  | succ r ih =>
    intro i f f1 hf
    unfold addLoop at hf
    cases hloc : location h i with
    | none => simp [hloc] at hf
    | some loc =>
      simp only [hloc] at hf
      cases hb : f.keys[(f.location loc).1]? with
      | none => simp [hb] at hf
      | some b =>
        simp only [hb, mask_eq] at hf
        obtain ⟨hm, hn, hl, hk, hc, hlen, hle, hp⟩ := ih (i + 1) _ f1 hf
        have hstep : BitsLE f
            { f with keys := f.keys.set (f.location loc).1 (b ||| 2 ^ (f.location loc).2) } :=
          fun s j hs => bitAt_set_or f _ b _ s j hb hs
        refine ⟨hm, hn, hl, hk, hc, ?_, hstep.trans hle, ?_⟩
        · rw [hlen]; simp
        · intro j hj
          cases j with
          | zero =>
            have hset := bitAt_set_self f (f.location loc).1 b (f.location loc).2 hb
            have := hle _ _ hset
            unfold probeAt
            simp only [Nat.add_zero, hloc]
            have hm1 : f1.m = f.m := hm
            rw [location_congr f f1 hm1]
            exact this
          | succ j =>
            have := hp j (by omega)
            have e : i + (j + 1) = i + 1 + j := by omega
            rw [e]; exact this

theorem addLoop_isSome (h : List Nat) (hh : h.length = 4) :
    ∀ (r i : Nat) (f : Filter), 0 < f.m → f.m < u64 → f.keys.length = f.m →
      ∃ f1, addLoop h r i f = some f1 := by
  intro r
  induction r with
  | zero => intro i f _ _ _; exact ⟨f, rfl⟩
  | succ r ih =>
    intro i f h0 h1 hlen
    obtain ⟨loc, hloc⟩ := location_isSome h hh i
    have hlt : (f.location loc).1 < f.keys.length := by
      rw [hlen]; exact location_fst_lt f loc h0 h1
    unfold addLoop
    simp only [hloc, List.getElem?_eq_getElem hlt]
    apply ih
    · exact h0
    · exact h1
    · simpa using hlen

theorem probeAt_succ_iff (h : List Nat) (f : Filter) (r i : Nat) :
    (∀ j, j < r + 1 → probeAt h f (i + j) = true) ↔
      probeAt h f i = true ∧ ∀ j, j < r → probeAt h f (i + 1 + j) = true := by
  constructor
  · intro hall
    refine ⟨by simpa using hall 0 (by omega), fun j hj => ?_⟩
    have := hall (j + 1) (by omega)
    have e : i + (j + 1) = i + 1 + j := by omega
    rw [e] at this; exact this
  · rintro ⟨h0, hs⟩ j hj
    cases j with
    | zero => simpa using h0
    | succ j =>
      have e : i + (j + 1) = i + 1 + j := by omega
      rw [e]; exact hs j (by omega)

theorem testLoop_succ (h : List Nat) (f : Filter) (r i : Nat) :
    testLoop h f (r + 1) i =
      match location h i with
      | none => none
      | some loc =>
        match f.keys[(f.location loc).1]? with
        | none => none
        | some b =>
          if b &&& ((1 <<< (f.location loc).2) % 256) = 0 then some false
          else testLoop h f r (i + 1) := rfl

theorem testLoop_true_iff (h : List Nat) (f : Filter) :
    ∀ (r i : Nat), testLoop h f r i = some true ↔
      ∀ j, j < r → probeAt h f (i + j) = true := by
  intro r
  induction r with
  | zero =>
    intro i
    simp [testLoop]
  | succ r ih =>
    intro i
    rw [probeAt_succ_iff, ← ih (i + 1), testLoop_succ]
    unfold probeAt bitAt
    cases hloc : location h i with
    | none => simp
    | some loc =>
      cases hb : f.keys[(f.location loc).1]? with
      | none => simp [hb]
      | some b =>
        simp only [hb, mask_eq, and_two_pow_eq_zero]
        cases hbit : b.testBit (f.location loc).2 <;> simp

theorem testLoop_isSome (h : List Nat) (hh : h.length = 4) (f : Filter)
    (h0 : 0 < f.m) (h1 : f.m < u64) (hlen : f.keys.length = f.m) :
    ∀ (r i : Nat), ∃ b, testLoop h f r i = some b := by
  intro r
  induction r with
  | zero => intro i; exact ⟨true, rfl⟩
  | succ r ih =>
    intro i
    obtain ⟨loc, hloc⟩ := location_isSome h hh i
    have hlt : (f.location loc).1 < f.keys.length := by
      rw [hlen]; exact location_fst_lt f loc h0 h1
    unfold testLoop
    simp only [hloc, List.getElem?_eq_getElem hlt]
    split
    · exact ⟨false, rfl⟩
    · exact ih (i + 1)

/-! ## Well-formed filters, `Add`, `Test`, `AddBatch`, `Reset` -/

theorem Filter.WF.pos {f : Filter} (h : f.WF) : 0 < f.m := by
  rw [h.1]; exact Nat.pos_pow_of_pos _ (by decide)

theorem Filter.WF.lt {f : Filter} (h : f.WF) : f.m < u64 := by
  rw [h.1]; exact Nat.pow_lt_pow_right (by decide) h.2.1

theorem Filter.WF.congr {f f1 : Filter} (h : f.WF) (hm : f1.m = f.m)
    (hl : f1.log2m = f.log2m) (hlen : f1.keys.length = f.keys.length) : f1.WF := by
  unfold Filter.WF at h ⊢
  rw [hm, hl, hlen]; exact h

theorem bitAt_congr {f f1 : Filter} (hk : f1.keys = f.keys) (s j : Nat) :
    bitAt f1 s j = bitAt f s j := by
  unfold bitAt; rw [hk]

theorem probeAt_congr {f f1 : Filter} (hk : f1.keys = f.keys) (hm : f1.m = f.m)
    (h : List Nat) (i : Nat) : probeAt h f1 i = probeAt h f i := by
  unfold probeAt
  cases location h i with
  | none => rfl
  | some loc => simp only [location_congr f f1 hm, bitAt_congr hk]

theorem probeAt_mono {f f1 : Filter} (hle : BitsLE f f1) (hm : f1.m = f.m)
    (h : List Nat) (i : Nat) (hp : probeAt h f i = true) : probeAt h f1 i = true := by
  unfold probeAt at hp ⊢
  cases hloc : location h i with
  | none => simp [hloc] at hp
  | some loc =>
    simp only [hloc] at hp
    simp only [location_congr f f1 hm]
    exact hle _ _ hp

theorem Add_props (sum128 : List Nat → Nat × Nat) (f f1 : Filter) (data : List Nat)
    (h : Add sum128 f data = some f1) :
    f1.m = f.m ∧ f1.n = (f.n + 1) % u64 ∧ f1.log2m = f.log2m ∧ f1.k = f.k ∧
    f1.concurrent = f.concurrent ∧ f1.keys.length = f.keys.length ∧
    BitsLE f f1 ∧ ∀ i, i < f.k → probeBit sum128 f1 data i = true := by
  unfold Add at h
  cases hl : addLoop (baseHash sum128 data) f.k 0 f with
  | none => simp [hl] at h
  | some f2 =>
    simp only [hl, Option.some.injEq] at h
    obtain ⟨hm, hn, hlg, hk, hc, hlen, hle, hp⟩ := addLoop_props _ _ _ _ _ hl
    subst h
    refine ⟨hm, by simp [hn], hlg, hk, hc, hlen, ?_, ?_⟩
    · intro s j hb
      have := hle s j hb
      rw [← this]; exact bitAt_congr rfl s j
    · intro i hi
      have := hp i hi
      rw [Nat.zero_add] at this
      unfold probeBit
      rw [← this]; exact probeAt_congr rfl rfl _ i

theorem Add_isSome (sum128 : List Nat → Nat × Nat) (f : Filter) (hf : f.WF)
    (data : List Nat) : ∃ f1, Add sum128 f data = some f1 := by
  obtain ⟨f2, h2⟩ := addLoop_isSome (baseHash sum128 data) (baseHash_length _ _)
    f.k 0 f hf.pos hf.lt hf.2.2
  refine ⟨{ f2 with n := (f2.n + 1) % u64 }, ?_⟩
  unfold Add
  simp only [h2]

theorem Add_WF (sum128 : List Nat → Nat × Nat) (f f1 : Filter) (data : List Nat)
    (hf : f.WF) (h : Add sum128 f data = some f1) : f1.WF := by
  obtain ⟨hm, _, hl, _, _, hlen, _, _⟩ := Add_props sum128 f f1 data h
  exact hf.congr hm hl hlen

theorem Test_true_iff (sum128 : List Nat → Nat × Nat) (f : Filter) (data : List Nat) :
    Test sum128 f data = some true ↔ ∀ i, i < f.k → probeBit sum128 f data i = true := by
  unfold Test probeBit
  rw [testLoop_true_iff]
  simp only [Nat.zero_add]

theorem Test_isSome (sum128 : List Nat → Nat × Nat) (f : Filter) (hf : f.WF)
    (data : List Nat) : ∃ b, Test sum128 f data = some b :=
  testLoop_isSome _ (baseHash_length _ _) f hf.pos hf.lt hf.2.2 f.k 0

theorem Test_mono (sum128 : List Nat → Nat × Nat) {f f1 : Filter} (hle : BitsLE f f1)
    (hm : f1.m = f.m) (hk : f1.k = f.k) (data : List Nat)
    (h : Test sum128 f data = some true) : Test sum128 f1 data = some true := by
  rw [Test_true_iff] at h ⊢
  intro i hi
  rw [hk] at hi
  exact probeAt_mono hle hm _ i (h i hi)

theorem AddBatch_cons (sum128 : List Nat → Nat × Nat) (f : Filter) (data : List Nat)
    (rest : List (List Nat)) :
    AddBatch sum128 f (data :: rest) =
      match Add sum128 f data with
      | none => none
      | some f1 => AddBatch sum128 f1 rest := by
  unfold Add
  rw [AddBatch]
  cases hl : addLoop (baseHash sum128 data) f.k 0 f with
  | none => simp only [hl]
  | some f2 => simp only [hl]

theorem AddBatch_props (sum128 : List Nat → Nat × Nat) :
    ∀ (dataArr : List (List Nat)) (f f1 : Filter), AddBatch sum128 f dataArr = some f1 →
      f1.m = f.m ∧ f1.log2m = f.log2m ∧ f1.k = f.k ∧ f1.concurrent = f.concurrent ∧
      f1.keys.length = f.keys.length ∧ BitsLE f f1 := by
  intro dataArr
  induction dataArr with
  | nil =>
    intro f f1 h
    simp only [AddBatch, Option.some.injEq] at h
    subst h
    exact ⟨rfl, rfl, rfl, rfl, rfl, BitsLE.refl _⟩
  | cons data rest ih =>
    intro f f1 h
    rw [AddBatch_cons] at h
    cases ha : Add sum128 f data with
    | none => simp [ha] at h
    | some f2 =>
      simp only [ha] at h
      obtain ⟨hm, _, hl, hk, hc, hlen, hle, _⟩ := Add_props sum128 f f2 data ha
      obtain ⟨hm2, hl2, hk2, hc2, hlen2, hle2⟩ := ih f2 f1 h
      exact ⟨hm2.trans hm, hl2.trans hl, hk2.trans hk, hc2.trans hc, hlen2.trans hlen,
        hle.trans hle2⟩

theorem AddBatch_isSome (sum128 : List Nat → Nat × Nat) :
    ∀ (dataArr : List (List Nat)) (f : Filter), f.WF →
      ∃ f1, AddBatch sum128 f dataArr = some f1 := by
  intro dataArr
  induction dataArr with
  | nil => intro f _; exact ⟨f, rfl⟩
  | cons data rest ih =>
    intro f hf
    obtain ⟨f2, h2⟩ := Add_isSome sum128 f hf data
    obtain ⟨f1, h1⟩ := ih f2 (Add_WF sum128 f f2 data hf h2)
    exact ⟨f1, by rw [AddBatch_cons]; simp only [h2]; exact h1⟩

theorem AddBatch_WF (sum128 : List Nat → Nat × Nat) (f f1 : Filter)
    (dataArr : List (List Nat)) (hf : f.WF) (h : AddBatch sum128 f dataArr = some f1) :
    f1.WF := by
  obtain ⟨hm, hl, _, _, hlen, _⟩ := AddBatch_props sum128 dataArr f f1 h
  exact hf.congr hm hl hlen

theorem Reset_WF (f : Filter) (hf : f.WF) : (Reset f).WF :=
  hf.congr rfl rfl (by simp [Reset])

theorem Reset_keys (f : Filter) (i : Nat) (hi : i < f.keys.length) :
    (Reset f).keys[i]? = some 0 := by
  unfold Reset
  simp only [List.getElem?_map, List.getElem?_eq_getElem hi, Option.map_some', Nat.and_zero]

/-! ## `MergeInPlace` -/

theorem mergeLoop_props (g : Filter) :
    ∀ (r i : Nat) (f f1 : Filter), mergeLoop g r i f = some f1 →
      f1.m = f.m ∧ f1.n = f.n ∧ f1.log2m = f.log2m ∧ f1.k = f.k ∧
      f1.concurrent = f.concurrent ∧ f1.keys.length = f.keys.length ∧
      (∀ j, j < i → f1.keys[j]? = f.keys[j]?) ∧
      (∀ j, i ≤ j → j < i + r → ∃ a b, f.keys[j]? = some a ∧ g.keys[j]? = some b ∧
        f1.keys[j]? = some (a ||| b)) ∧
      (∀ j, i + r ≤ j → f1.keys[j]? = f.keys[j]?) := by
  intro r
  induction r with
  | zero =>
    intro i f f1 h
    simp only [mergeLoop, Option.some.injEq] at h
    subst h
    exact ⟨rfl, rfl, rfl, rfl, rfl, rfl, fun _ _ => rfl, fun j h1 h2 => by omega,
      fun _ _ => rfl⟩
  | succ r ih =>
    intro i f f1 h
    unfold mergeLoop at h
    cases ha : f.keys[i]? with
    | none => simp [ha] at h
    | some a =>
      cases hb : g.keys[i]? with
      | none => simp [ha, hb] at h
      | some b =>
        simp only [ha, hb] at h
        obtain ⟨hm, hn, hl, hk, hc, hlen, hlo, hmid, hhi⟩ := ih (i + 1) _ f1 h
        have hlt : i < f.keys.length := by
          rcases List.getElem?_eq_some.mp ha with ⟨hlt, _⟩
          exact hlt
        refine ⟨hm, hn, hl, hk, hc, ?_, ?_, ?_, ?_⟩
        · rw [hlen]; simp
        · intro j hj
          rw [hlo j (by omega)]
          exact List.getElem?_set_ne (by omega)
        · intro j h1 h2
          by_cases hij : j = i
          · subst hij
            refine ⟨a, b, ha, hb, ?_⟩
            rw [hlo j (by omega)]
            exact List.getElem?_set_self hlt
          · obtain ⟨a1, b1, h3, h4, h5⟩ := hmid j (by omega) (by omega)
            refine ⟨a1, b1, ?_, h4, h5⟩
            rw [← h3]
            exact (List.getElem?_set_ne (by omega)).symm
        · intro j hj
          rw [hhi j (by omega)]
          exact List.getElem?_set_ne (by omega)

theorem mergeLoop_isSome (g : Filter) :
    ∀ (r i : Nat) (f : Filter), i + r ≤ f.keys.length → i + r ≤ g.keys.length →
      ∃ f1, mergeLoop g r i f = some f1 := by
  intro r
  induction r with
  | zero => intro i f _ _; exact ⟨f, rfl⟩
  | succ r ih =>
    intro i f h1 h2
    have hf : i < f.keys.length := by omega
    have hg : i < g.keys.length := by omega
    unfold mergeLoop
    simp only [List.getElem?_eq_getElem hf, List.getElem?_eq_getElem hg]
    apply ih
    · simp only [List.length_set]; omega
    · omega

theorem MergeInPlace_nil (f g f1 : Filter) (h : MergeInPlace f g = some (f1, none)) :
    f.m = g.m ∧ f.k = g.k ∧ g.concurrent = false ∧
    mergeLoop g f.keys.length 0 f = some f1 := by
  unfold MergeInPlace at h
  by_cases hm : f.m = g.m
  · by_cases hk : f.k = g.k
    · cases hc : g.concurrent with
      | true => simp [hm, hk, hc] at h
      | false =>
        simp only [hm, hk, hc, ne_eq, not_true_eq_false, if_false, Bool.false_eq_true] at h
        cases hl : mergeLoop g f.keys.length 0 f with
        | none => simp [hl] at h
        | some f2 =>
          simp only [hl, Option.some.injEq, Prod.mk.injEq, and_true] at h
          subst h
          exact ⟨hm, hk, rfl, rfl⟩
    · simp [hm, hk] at h
  · simp [hm] at h

theorem MergeInPlace_error (f g f1 : Filter) (e : String)
    (h : MergeInPlace f g = some (f1, some e)) : f1 = f := by
  unfold MergeInPlace at h
  by_cases hm : f.m = g.m
  · by_cases hk : f.k = g.k
    · cases hc : g.concurrent with
      | true =>
        simp only [hm, hk, hc, ne_eq, not_true_eq_false, if_false, if_true,
          Option.some.injEq, Prod.mk.injEq] at h
        exact h.1.symm
      | false =>
        simp only [hm, hk, hc, ne_eq, not_true_eq_false, if_false, Bool.false_eq_true] at h
        cases hl : mergeLoop g f.keys.length 0 f with
        | none => simp [hl] at h
        | some f2 => simp [hl] at h
    · simp only [hm, hk, ne_eq, not_true_eq_false, not_false_eq_true, if_false, if_true,
        Option.some.injEq, Prod.mk.injEq] at h
      exact h.1.symm
  · simp only [hm, ne_eq, not_false_eq_true, if_true, Option.some.injEq, Prod.mk.injEq] at h
    exact h.1.symm

theorem MergeInPlace_bitAt (f g f1 : Filter) (h : MergeInPlace f g = some (f1, none))
    (hlen : g.keys.length = f.keys.length) (s j : Nat) :
    bitAt f1 s j = (bitAt f s j || bitAt g s j) := by
  obtain ⟨_, _, _, hl⟩ := MergeInPlace_nil f g f1 h
  obtain ⟨_, _, _, _, _, hlen1, _, hmid, hhi⟩ := mergeLoop_props g _ _ f f1 hl
  unfold bitAt
  by_cases hs : s < f.keys.length
  · obtain ⟨a, b, ha, hb, hab⟩ := hmid s (by omega) (by omega)
    simp only [ha, hb, hab, Nat.testBit_or]
  · have h1 : f.keys[s]? = none := List.getElem?_eq_none (by omega)
    have h2 : g.keys[s]? = none := List.getElem?_eq_none (by omega)
    have h3 : f1.keys[s]? = none := List.getElem?_eq_none (by omega)
    simp only [h1, h2, h3, Bool.or_self]

theorem MergeInPlace_isSome (f g : Filter) (hm : f.m = g.m) (hk : f.k = g.k)
    (hc : g.concurrent = false) (hlen : f.keys.length ≤ g.keys.length) :
    ∃ f1, MergeInPlace f g = some (f1, none) := by
  obtain ⟨f1, h1⟩ := mergeLoop_isSome g f.keys.length 0 f (by omega) (by omega)
  refine ⟨f1, ?_⟩
  unfold MergeInPlace
  simp only [hm, hk, hc, ne_eq, not_true_eq_false, if_false, h1, Bool.false_eq_true]

theorem MergeInPlace_fields (f g f1 : Filter) (e : Option String)
    (h : MergeInPlace f g = some (f1, e)) :
    f1.m = f.m ∧ f1.n = f.n ∧ f1.log2m = f.log2m ∧ f1.k = f.k ∧
    f1.concurrent = f.concurrent ∧ f1.keys.length = f.keys.length ∧ BitsLE f f1 := by
  cases e with
  | some e =>
    have := MergeInPlace_error f g f1 e h
    subst this
    exact ⟨rfl, rfl, rfl, rfl, rfl, rfl, BitsLE.refl _⟩
  | none =>
    obtain ⟨_, _, _, hl⟩ := MergeInPlace_nil f g f1 h
    obtain ⟨hm, hn, hlg, hk, hc, hlen, _, hmid, hhi⟩ := mergeLoop_props g _ _ f f1 hl
    refine ⟨hm, hn, hlg, hk, hc, hlen, ?_⟩
    intro s j hb
    unfold bitAt at hb ⊢
    by_cases hs : s < f.keys.length
    · obtain ⟨a, b, ha, _, hab⟩ := hmid s (by omega) (by omega)
      rw [ha] at hb
      simp only at hb
      simp only [hab, Nat.testBit_or, hb, Bool.true_or]
    · have h1 : f.keys[s]? = none := List.getElem?_eq_none (by omega)
      rw [h1] at hb
      simp at hb

theorem MergeInPlace_WF (f g f1 : Filter) (e : Option String) (hf : f.WF)
    (h : MergeInPlace f g = some (f1, e)) : f1.WF := by
  obtain ⟨hm, _, hl, _, _, hlen, _⟩ := MergeInPlace_fields f g f1 e h
  exact hf.congr hm hl hlen

/-! ## `New` -/

theorem shl64_one_pos (s : Nat) (h : 0 < shl64 1 s) : s < 64 ∧ shl64 1 s = 2 ^ s := by
  unfold shl64 at h ⊢
  by_cases hs : s < 64
  · refine ⟨hs, ?_⟩
    rw [if_pos hs, Nat.one_shiftLeft]
    exact Nat.mod_eq_of_lt (Nat.pow_lt_pow_right (by decide) hs)
  · rw [if_neg hs] at h
    exact absurd h (Nat.lt_irrefl 0)

theorem shl64_one_of_lt (s : Nat) (h : s < 64) : shl64 1 s = 2 ^ s := by
  unfold shl64
  rw [if_pos h, Nat.one_shiftLeft]
  exact Nat.mod_eq_of_lt (Nat.pow_lt_pow_right (by decide) h)

theorem New_props (L : Nat → Nat) (size k : Nat) (c : Bool) (f : Filter)
    (h : New L size k c = some f) :
    f.m = shl64 1 (ceilLog2 L size) ∧ f.n = 0 ∧ f.log2m = ceilLog2 L size ∧ f.k = k ∧
    f.concurrent = c ∧ f.keys = List.replicate (shl64 1 (ceilLog2 L size)) 0 ∧
    shl64 1 (ceilLog2 L size) ≤ maxAlloc := by
  unfold New at h
  by_cases hlen : 2 ^ 63 ≤ shl64 1 (ceilLog2 L size) ∨ maxAlloc < shl64 1 (ceilLog2 L size)
  · rw [if_pos hlen] at h
    exact absurd h (by simp)
  · rw [if_neg hlen, Option.some.injEq] at h
    subst h
    exact ⟨rfl, rfl, rfl, rfl, rfl, rfl, Nat.le_of_not_lt (fun hlt => hlen (Or.inr hlt))⟩

theorem New_length (L : Nat → Nat) (size k : Nat) (c : Bool) (f : Filter)
    (h : New L size k c = some f) : f.keys.length = f.m := by
  obtain ⟨hm, _, _, _, _, hk, _⟩ := New_props L size k c f h
  rw [hk, hm, List.length_replicate]

theorem New_WF (L : Nat → Nat) (size k : Nat) (c : Bool) (f : Filter)
    (h : New L size k c = some f) (hpos : 0 < f.m) : f.WF := by
  obtain ⟨hm, _, hl, _, _, _, _⟩ := New_props L size k c f h
  rw [hm] at hpos
  obtain ⟨h64, h2⟩ := shl64_one_pos _ hpos
  refine ⟨?_, ?_, New_length L size k c f h⟩
  · rw [hm, hl, h2]
  · rw [hl]; exact h64

theorem New_of_le (L : Nat → Nat) (size k : Nat) (c : Bool)
    (h : ceilLog2 L size ≤ 48) :
    ∃ f, New L size k c = some f ∧ f.m = 2 ^ ceilLog2 L size := by
  have h2 : shl64 1 (ceilLog2 L size) = 2 ^ ceilLog2 L size :=
    shl64_one_of_lt _ (by omega)
  have hle : 2 ^ ceilLog2 L size ≤ 2 ^ 48 := Nat.pow_le_pow_right (by decide) h
  have h3 : ¬ (2 ^ 63 ≤ shl64 1 (ceilLog2 L size) ∨ maxAlloc < shl64 1 (ceilLog2 L size)) := by
    rw [h2]
    intro hor
    rcases hor with h4 | h4
    · exact absurd (Nat.le_trans h4 hle) (by decide)
    · exact absurd (Nat.lt_of_lt_of_le h4 hle) (Nat.lt_irrefl _)
  unfold New
  rw [if_neg h3]
  exact ⟨_, rfl, h2⟩

theorem ceilLog2_overflow (L : Nat → Nat) : ceilLog2 L (2 ^ 64 - 1) = 64 := by
  have h1 : toFloat64 (2 ^ 64 - 1) = 2 ^ 64 := by decide
  have h2 : isPowerOfTwo (2 ^ 64) = true := by decide
  have h3 : exponent 65 (2 ^ 64) = 64 := by decide
  unfold ceilLog2
  simp only [h1, h2, h3, if_true]

theorem New_overflow (L : Nat → Nat) (k : Nat) (c : Bool) :
    New L (2 ^ 64 - 1) k c =
      some { concurrent := c, m := 0, n := 0, log2m := 64, k := k, keys := [] } := by
  unfold New
  rw [ceilLog2_overflow]
  rfl

theorem ceilLog2_round_down (L : Nat → Nat) : ceilLog2 L (2 ^ 53 + 1) = 53 := by
  have h1 : toFloat64 (2 ^ 53 + 1) = 2 ^ 53 := by decide
  have h2 : isPowerOfTwo (2 ^ 53) = true := by decide
  have h3 : exponent 65 (2 ^ 53) = 53 := by decide
  unfold ceilLog2
  simp only [h1, h2, h3, if_true]

theorem exponent_spec :
    ∀ (fuel x : Nat), 0 < x → x < 2 ^ fuel →
      2 ^ exponent fuel x ≤ x ∧ x < 2 ^ (exponent fuel x + 1) := by
  intro fuel
  induction fuel with
  | zero => intro x h0 h1; simp at h1; omega
  | succ fuel ih =>
    intro x h0 h1
    unfold exponent
    by_cases h2 : x < 2
    · rw [if_pos h2]
      simp only [Nat.pow_zero, Nat.zero_add, Nat.pow_one]
      omega
    · rw [if_neg h2]
      have h3 : x / 2 < 2 ^ fuel := by
        rw [Nat.pow_succ] at h1
        omega
      obtain ⟨h4, h5⟩ := ih (x / 2) (by omega) h3
      rw [Nat.pow_succ, Nat.pow_succ]
      rw [Nat.pow_succ] at h5
      omega

theorem exponent_two_pow (fuel e : Nat) (h : e < fuel) : exponent fuel (2 ^ e) = e := by
  have hlt : 2 ^ e < 2 ^ fuel := Nat.pow_lt_pow_right (by decide) h
  obtain ⟨h1, h2⟩ := exponent_spec fuel (2 ^ e) (Nat.pos_pow_of_pos _ (by decide)) hlt
  have h3 : exponent fuel (2 ^ e) ≤ e := (Nat.pow_le_pow_iff_right (by decide)).mp h1
  have h4 : e < exponent fuel (2 ^ e) + 1 := (Nat.pow_lt_pow_iff_right (by decide)).mp h2
  omega

theorem isPowerOfTwo_iff (x : Nat) (h0 : 0 < x) (h1 : x < 2 ^ 65) :
    isPowerOfTwo x = true ↔ ∃ e, x = 2 ^ e := by
  unfold isPowerOfTwo
  constructor
  · intro h
    simp only [Bool.and_eq_true, beq_iff_eq] at h
    exact ⟨_, h.2⟩
  · rintro ⟨e, rfl⟩
    have he : e < 65 := (Nat.pow_lt_pow_iff_right (by decide)).mp h1
    rw [exponent_two_pow 65 e he]
    simp

theorem toFloat64_exact (size : Nat) (h : size ≤ 2 ^ 53) : toFloat64 size = size := by
  rcases Nat.lt_or_ge size (2 ^ 53) with hlt | hge
  · unfold toFloat64
    rw [if_pos hlt]
  · have : size = 2 ^ 53 := Nat.le_antisymm h hge
    subst this
    decide

theorem New_two_pow (L : Nat → Nat) (e k : Nat) (c : Bool) (he : e ≤ 48) :
    ∃ f, New L (2 ^ e) k c = some f ∧ Cap f = 2 ^ e := by
  have h53 : (2 : Nat) ^ e ≤ 2 ^ 53 := Nat.pow_le_pow_right (by decide) (by omega)
  have h65 : (2 : Nat) ^ e < 2 ^ 65 := Nat.pow_lt_pow_right (by decide) (by omega)
  have hp : isPowerOfTwo (2 ^ e) = true :=
    (isPowerOfTwo_iff (2 ^ e) (Nat.pos_pow_of_pos _ (by decide)) h65).mpr ⟨e, rfl⟩
  have hc : ceilLog2 L (2 ^ e) = e := by
    unfold ceilLog2
    simp only [toFloat64_exact (2 ^ e) h53, hp, if_true]
    exact exponent_two_pow 65 e (by omega)
  obtain ⟨f, hf, hm⟩ := New_of_le L (2 ^ e) k c (by rw [hc]; exact he)
  rw [hc] at hm
  exact ⟨f, hf, hm⟩

/-! ## Sequences of calls -/

theorem step_WF (sum128 : List Nat → Nat × Nat) (f f1 : Filter) (op : Op) (hf : f.WF)
    (h : step sum128 f op = some f1) : f1.WF := by
  cases op with
  | add data => exact Add_WF sum128 f f1 data hf h
  | addBatch dataArr => exact AddBatch_WF sum128 f f1 dataArr hf h
  | reset =>
    simp only [step, Option.some.injEq] at h
    subst h
    exact Reset_WF f hf
  | merge g =>
    simp only [step] at h
    cases hm : MergeInPlace f g with
    | none => simp [hm] at h
    | some p =>
      obtain ⟨f2, e⟩ := p
      simp only [hm, Option.map_some', Option.some.injEq] at h
      subst h
      exact MergeInPlace_WF f g f2 e hf hm

theorem run_WF (sum128 : List Nat → Nat × Nat) :
    ∀ (ops : List Op) (f f1 : Filter), f.WF → run sum128 f ops = some f1 → f1.WF := by
  intro ops
  induction ops with
  | nil =>
    intro f f1 hf h
    simp only [run, Option.some.injEq] at h
    subst h; exact hf
  | cons op ops ih =>
    intro f f1 hf h
    unfold run at h
    cases hs : step sum128 f op with
    | none => simp [hs] at h
    | some f2 =>
      simp only [hs] at h
      exact ih f2 f1 (step_WF sum128 f f2 op hf hs) h

theorem run_adds (sum128 : List Nat → Nat × Nat) :
    ∀ (keys : List (List Nat)) (f : Filter), f.WF →
      ∃ f1, run sum128 f (keys.map Op.add) = some f1 ∧ f1.m = f.m ∧ f1.k = f.k ∧
        BitsLE f f1 := by
  intro keys
  induction keys with
  | nil => intro f _; exact ⟨f, rfl, rfl, rfl, BitsLE.refl _⟩
  | cons key keys ih =>
    intro f hf
    obtain ⟨f2, h2⟩ := Add_isSome sum128 f hf key
    obtain ⟨hm, _, _, hk, _, _, hle, _⟩ := Add_props sum128 f f2 key h2
    obtain ⟨f1, h1, hm1, hk1, hle1⟩ := ih f2 (Add_WF sum128 f f2 key hf h2)
    refine ⟨f1, ?_, hm1.trans hm, hk1.trans hk, hle.trans hle1⟩
    simp only [List.map_cons, run, step, h2]
    exact h1

theorem probeBit_merge (sum128 : List Nat → Nat × Nat) (A B A1 : Filter)
    (h : MergeInPlace A B = some (A1, none)) (hlen : B.keys.length = A.keys.length)
    (key : List Nat) (i : Nat) :
    probeBit sum128 A1 key i = (probeBit sum128 A key i || probeBit sum128 B key i) := by
  obtain ⟨hm, _, _, _⟩ := MergeInPlace_nil A B A1 h
  obtain ⟨hm1, _⟩ := MergeInPlace_fields A B A1 none h
  unfold probeBit probeAt
  cases location (baseHash sum128 key) i with
  | none => rfl
  | some loc =>
    simp only [location_congr A A1 hm1, location_congr A B hm.symm]
    exact MergeInPlace_bitAt A B A1 h hlen _ _

theorem bitAt_Reset (f : Filter) (s j : Nat) : bitAt (Reset f) s j = false := by
  unfold bitAt Reset
  simp only [List.getElem?_map]
  cases f.keys[s]? with
  | none => rfl
  | some b => simp

theorem Filter.eq_of_fields (f g : Filter) (h1 : f.concurrent = g.concurrent)
    (h2 : f.m = g.m) (h3 : f.n = g.n) (h4 : f.log2m = g.log2m) (h5 : f.k = g.k)
    (h6 : f.keys = g.keys) : f = g := by
  cases f; cases g; simp_all

theorem MergeInPlace_self (g f1 : Filter) (e : Option String)
    (h : MergeInPlace g g = some (f1, e)) : f1 = g := by
  cases e with
  | some e => exact MergeInPlace_error g g f1 e h
  | none =>
    obtain ⟨_, _, _, hl⟩ := MergeInPlace_nil g g f1 h
    obtain ⟨hm, hn, hlg, hk, hc, hlen, _, hmid, hhi⟩ := mergeLoop_props g _ _ g f1 hl
    refine Filter.eq_of_fields f1 g hc hm hn hlg hk ?_
    apply List.ext_getElem?
    intro j
    by_cases hj : j < g.keys.length
    · obtain ⟨a, b, ha, hb, hab⟩ := hmid j (by omega) (by omega)
      rw [ha] at hb
      simp only [Option.some.injEq] at hb
      subst hb
      rw [hab, ha, Nat.or_self]
    · exact hhi j (by omega)

/-! ## The claims -/

/-- C1, as stated, fails: `New(2^64 - 1, 1, false)` returns a filter of capacity
`0` with an empty array (the shift `1 << 64` is `0`), and `Add` on it indexes
out of range, so no `Test` after it returns true. -/
theorem no_false_negatives_overflow :
    ¬ ∀ (L : Nat → Nat) (sum128 : List Nat → Nat × Nat) (size k : Nat) (c : Bool)
        (f0 f : Filter) (ops : List Op) (key : List Nat),
        1 ≤ size → size < u64 → 1 ≤ k → New L size k c = some f0 →
        run sum128 f0 ops = some f →
        ∃ f1, Add sum128 f key = some f1 ∧ Test sum128 f1 key = some true := by
  intro h
  obtain ⟨f1, h1, _⟩ := h noLog toySum128 (2 ^ 64 - 1) 1 false _ _ [] []
    (by decide) (by decide) (by decide) (New_overflow noLog 1 false) rfl
  have hnone : Add toySum128
      { concurrent := false, m := 0, n := 0, log2m := 64, k := 1, keys := [] } [] = none := by
    decide
  rw [hnone] at h1
  exact Option.noConfusion h1

/-- C1 (amended): no false negatives. For every filter that `New` returned with
a non-zero capacity, after any sequence of `Add` / `AddBatch` / `Reset` /
`MergeInPlace` calls, `Add(key)` completes and `Test(key)` right after it
returns true, for every key. -/
theorem no_false_negatives (L : Nat → Nat) (sum128 : List Nat → Nat × Nat)
    (size k : Nat) (c : Bool) (f0 f : Filter) (ops : List Op) (key : List Nat)
    (hnew : New L size k c = some f0) (hcap : 0 < Cap f0)
    (hrun : run sum128 f0 ops = some f) :
    ∃ f1, Add sum128 f key = some f1 ∧ Test sum128 f1 key = some true := by
  have hwf : f.WF := run_WF sum128 ops f0 f (New_WF L size k c f0 hnew hcap) hrun
  obtain ⟨f1, h1⟩ := Add_isSome sum128 f hwf key
  refine ⟨f1, h1, ?_⟩
  obtain ⟨_, _, _, hk, _, _, _, hp⟩ := Add_props sum128 f f1 key h1
  rw [Test_true_iff]
  intro i hi
  rw [hk] at hi
  exact hp i hi

/-- Witness of C1 (amended): `New(4, 2, false)`, then an add, a reset, a merge
and a batch add, then `Add` and `Test` of the key `[0, 8]`. -/
theorem no_false_negatives_witness :
    New noLog 4 2 false = some sampleNew ∧ 0 < Cap sampleNew ∧
    run toySum128 sampleNew
        [Op.add [0, 8], Op.reset, Op.merge sampleB, Op.addBatch [[16, 9]]] =
      some sampleRun ∧
    ∃ f1, Add toySum128 sampleRun [0, 8] = some f1 ∧
      Test toySum128 f1 [0, 8] = some true :=
  ⟨by decide, by decide, by decide,
    no_false_negatives noLog toySum128 4 2 false sampleNew sampleRun
      [Op.add [0, 8], Op.reset, Op.merge sampleB, Op.addBatch [[16, 9]]] [0, 8]
      (by decide) (by decide) (by decide)⟩

/-- C2, as stated, fails on the murmur3 digest: `realA` is `New(4, 2, false)`
after `Add` of the key `[0]`, `realB` the same after `Add` of the key `[12]`.
The two probes of the key `[4]` address bit 5 of byte 1, set only in `realB`,
and bit 7 of byte 0, set only in `realA`; so `Test` is false on both before
the merge and true on the merged filter. -/
theorem merge_test_not_union :
    (New noLog 4 2 false).bind (fun f => Add murmur3Sum128 f [0]) = some realA ∧
    (New noLog 4 2 false).bind (fun f => Add murmur3Sum128 f [12]) = some realB ∧
    realA.m = realB.m ∧ realA.k = realB.k ∧ realB.concurrent = false ∧
    MergeInPlace realA realB = some (realAB, none) ∧
    Test murmur3Sum128 realA [4] = some false ∧
    Test murmur3Sum128 realB [4] = some false ∧
    Test murmur3Sum128 realAB [4] = some true := by
  decide

/-- C2 (amended): for filters `A` and `B` with equal capacity and hash count,
`B` not concurrent, the merge succeeds and afterwards `Test(key)` on `A` is
true exactly when each of the `k` probed bits was set in `A` or in `B` before
the merge; in particular it is true whenever `A.Test(key)` or `B.Test(key)` was
true before. -/
theorem merge_test_probes (sum128 : List Nat → Nat × Nat) (A B : Filter)
    (hA : A.keys.length = A.m) (hB : B.keys.length = B.m) (hm : A.m = B.m)
    (hk : A.k = B.k) (hc : B.concurrent = false) :
    ∃ A1, MergeInPlace A B = some (A1, none) ∧ ∀ key,
      (Test sum128 A1 key = some true ↔
        ∀ i, i < A.k → (probeBit sum128 A key i || probeBit sum128 B key i) = true) ∧
      ((Test sum128 A key = some true ∨ Test sum128 B key = some true) →
        Test sum128 A1 key = some true) := by
  have hlen : B.keys.length = A.keys.length := by rw [hA, hB, hm]
  obtain ⟨A1, h1⟩ := MergeInPlace_isSome A B hm hk hc (by omega)
  obtain ⟨_, _, _, hk1, _⟩ := MergeInPlace_fields A B A1 none h1
  have hiff : ∀ key, Test sum128 A1 key = some true ↔
      ∀ i, i < A.k → (probeBit sum128 A key i || probeBit sum128 B key i) = true := by
    intro key
    rw [Test_true_iff, hk1]
    constructor
    · intro h i hi
      rw [← probeBit_merge sum128 A B A1 h1 hlen]
      exact h i hi
    · intro h i hi
      rw [probeBit_merge sum128 A B A1 h1 hlen]
      exact h i hi
  refine ⟨A1, h1, fun key => ⟨hiff key, ?_⟩⟩
  intro hor
  rw [hiff]
  intro i hi
  rcases hor with h | h
  · rw [Test_true_iff] at h
    rw [h i hi, Bool.true_or]
  · rw [Test_true_iff, ← hk] at h
    rw [h i hi, Bool.or_true]

/-- Witness of C2 (amended) on `realA` and `realB` under murmur3. -/
theorem merge_test_probes_witness :
    realA.keys.length = realA.m ∧ realB.keys.length = realB.m ∧
    realA.m = realB.m ∧ realA.k = realB.k ∧ realB.concurrent = false ∧
    ∃ A1, MergeInPlace realA realB = some (A1, none) ∧ ∀ key,
      (Test murmur3Sum128 A1 key = some true ↔
        ∀ i, i < realA.k →
          (probeBit murmur3Sum128 realA key i || probeBit murmur3Sum128 realB key i) = true) ∧
      ((Test murmur3Sum128 realA key = some true ∨ Test murmur3Sum128 realB key = some true) →
        Test murmur3Sum128 A1 key = some true) :=
  ⟨by decide, by decide, by decide, by decide, by decide,
    merge_test_probes murmur3Sum128 realA realB (by decide) (by decide) (by decide)
      (by decide) (by decide)⟩

/-- C3: merge preserves membership. For filters `A` and `B` with equal capacity
and hash count, `B` not concurrent, `A.MergeInPlace(B)` succeeds, and every key
on which `A.Test` or `B.Test` was true before tests true on `A` afterwards. -/
theorem merge_preserves_membership (sum128 : List Nat → Nat × Nat) (A B : Filter)
    (hA : A.keys.length = A.m) (hB : B.keys.length = B.m) (hm : A.m = B.m)
    (hk : A.k = B.k) (hc : B.concurrent = false) :
    ∃ A1, MergeInPlace A B = some (A1, none) ∧ ∀ key,
      (Test sum128 A key = some true ∨ Test sum128 B key = some true) →
        Test sum128 A1 key = some true := by
  have hlen : B.keys.length = A.keys.length := by rw [hA, hB, hm]
  obtain ⟨A1, h1⟩ := MergeInPlace_isSome A B hm hk hc (by omega)
  obtain ⟨_, _, _, hk1, _⟩ := MergeInPlace_fields A B A1 none h1
  refine ⟨A1, h1, ?_⟩
  intro key hor
  rw [Test_true_iff, hk1]
  intro i hi
  rw [probeBit_merge sum128 A B A1 h1 hlen]
  rcases hor with h | h
  · rw [Test_true_iff] at h
    rw [h i hi, Bool.true_or]
  · rw [Test_true_iff, ← hk] at h
    rw [h i hi, Bool.or_true]

/-- Witness of C3 on `sampleA` and `sampleB`. -/
theorem merge_preserves_membership_witness :
    sampleA.keys.length = sampleA.m ∧ sampleB.keys.length = sampleB.m ∧
    sampleA.m = sampleB.m ∧ sampleA.k = sampleB.k ∧ sampleB.concurrent = false ∧
    ∃ A1, MergeInPlace sampleA sampleB = some (A1, none) ∧ ∀ key,
      (Test toySum128 sampleA key = some true ∨ Test toySum128 sampleB key = some true) →
        Test toySum128 A1 key = some true :=
  ⟨by decide, by decide, by decide, by decide, by decide,
    merge_preserves_membership toySum128 sampleA sampleB (by decide) (by decide)
      (by decide) (by decide) (by decide)⟩

/-- C4: monotonicity. On a well-formed filter `Add` and `AddBatch` complete and
keep every set bit, a successful `MergeInPlace` keeps every set bit, and a key
that tests true still tests true after any further sequence of `Add` calls. -/
theorem bits_never_cleared (sum128 : List Nat → Nat × Nat) (f : Filter) (hf : f.WF) :
    (∀ data, ∃ f1, Add sum128 f data = some f1 ∧ BitsLE f f1) ∧
    (∀ dataArr, ∃ f1, AddBatch sum128 f dataArr = some f1 ∧ BitsLE f f1) ∧
    (∀ g f1, MergeInPlace f g = some (f1, none) → BitsLE f f1) ∧
    (∀ (x : List Nat) (keys : List (List Nat)), Test sum128 f x = some true →
      ∃ f1, run sum128 f (keys.map Op.add) = some f1 ∧ Test sum128 f1 x = some true) := by
  refine ⟨?_, ?_, ?_, ?_⟩
  · intro data
    obtain ⟨f1, h1⟩ := Add_isSome sum128 f hf data
    exact ⟨f1, h1, (Add_props sum128 f f1 data h1).2.2.2.2.2.2.1⟩
  · intro dataArr
    obtain ⟨f1, h1⟩ := AddBatch_isSome sum128 dataArr f hf
    exact ⟨f1, h1, (AddBatch_props sum128 dataArr f f1 h1).2.2.2.2.2⟩
  · intro g f1 h
    exact (MergeInPlace_fields f g f1 none h).2.2.2.2.2.2
  · intro x keys hx
    obtain ⟨f1, h1, hm, hk, hle⟩ := run_adds sum128 keys f hf
    exact ⟨f1, h1, Test_mono sum128 hle hm hk x hx⟩

/-- Witness of C4 on `sampleA`. -/
theorem bits_never_cleared_witness :
    sampleA.WF ∧
    (∀ data, ∃ f1, Add toySum128 sampleA data = some f1 ∧ BitsLE sampleA f1) ∧
    (∀ dataArr, ∃ f1, AddBatch toySum128 sampleA dataArr = some f1 ∧ BitsLE sampleA f1) ∧
    (∀ g f1, MergeInPlace sampleA g = some (f1, none) → BitsLE sampleA f1) ∧
    (∀ (x : List Nat) (keys : List (List Nat)), Test toySum128 sampleA x = some true →
      ∃ f1, run toySum128 sampleA (keys.map Op.add) = some f1 ∧
        Test toySum128 f1 x = some true) :=
  ⟨by decide, bits_never_cleared toySum128 sampleA (by decide)⟩

/-- C5 at the failing input `New(2^64 - 1, 1, false)`: the double is `2^64`,
the logarithm is exactly `64`, the shift `1 << 64` is `0`; `New` returns a
filter whose `Cap()` is `0`, which is not a power of two and is below the
target size. -/
theorem New_cap_zero :
    New noLog (2 ^ 64 - 1) 1 false =
      some { concurrent := false, m := 0, n := 0, log2m := 64, k := 1, keys := [] } ∧
    Cap { concurrent := false, m := 0, n := 0, log2m := 64, k := 1, keys := [] } = 0 ∧
    (¬ ∃ e, Cap { concurrent := false, m := 0, n := 0, log2m := 64, k := 1, keys := [] }
      = 2 ^ e) ∧
    Cap { concurrent := false, m := 0, n := 0, log2m := 64, k := 1, keys := [] }
      < 2 ^ 64 - 1 := by
  refine ⟨New_overflow noLog 1 false, rfl, ?_, by decide⟩
  rintro ⟨e, he⟩
  have hpos : 0 < 2 ^ e := Nat.pos_pow_of_pos e (by decide)
  have h0 : (0 : Nat) = 2 ^ e := he
  omega

/-- C6 at the failing input `New(1024, 3, false)`: `Cap()` is `1024`, the byte
array is zero-filled and has `1024` bytes, not `Cap()/8 = 128`. -/
theorem New_allocates_cap_bytes :
    ∃ f, New noLog 1024 3 false = some f ∧ Cap f = 1024 ∧ f.keys.length = 1024 ∧
      (∀ b, b ∈ f.keys → b = 0) ∧ Cap f / 8 = 128 ∧ f.keys.length ≠ Cap f / 8 := by
  have hc : ceilLog2 noLog 1024 = 10 := by decide
  obtain ⟨f, hf, hm⟩ := New_of_le noLog 1024 3 false (by rw [hc]; decide)
  rw [hc] at hm
  have hm1 : f.m = 1024 := by rw [hm]; rfl
  have hlen : f.keys.length = 1024 := by rw [New_length noLog 1024 3 false f hf, hm1]
  obtain ⟨_, _, _, _, _, hk, _⟩ := New_props noLog 1024 3 false f hf
  refine ⟨f, hf, hm1, hlen, ?_, ?_, ?_⟩
  · intro b hb
    rw [hk] at hb
    exact List.eq_of_mem_replicate hb
  · show f.m / 8 = 128
    rw [hm1]
  · show f.keys.length ≠ f.m / 8
    rw [hlen, hm1]; decide

/-- C7, as stated, fails: `New(2^64 - 1, 1, false)` returns the filter
`zeroCap` with one hash function and an empty array; `Reset` on it returns,
and `Test` afterwards indexes the empty array on its first probe instead of
returning false. -/
theorem reset_test_out_of_range :
    New noLog (2 ^ 64 - 1) 1 false = some zeroCap ∧ 1 ≤ zeroCap.k ∧
    Reset zeroCap = zeroCap ∧
    Test murmur3Sum128 (Reset zeroCap) [] = none ∧
    Test murmur3Sum128 (Reset zeroCap) [4] = none :=
  ⟨New_overflow noLog 1 false, by decide, by decide, by decide, by decide⟩

/-- C7 (amended): `Reset` clears the state. After `Reset` on any filter every
byte of the array is zero, `KeySize()` is `0`, and capacity, hash count and
array length are unchanged; and when the filter is well-formed and has at least
one hash function, `Test` completes and returns false on every key. -/
theorem reset_clears (sum128 : List Nat → Nat × Nat) (f : Filter) :
    (∀ b, b ∈ (Reset f).keys → b = 0) ∧ KeySize (Reset f) = 0 ∧
    Cap (Reset f) = Cap f ∧ (Reset f).k = f.k ∧
    (Reset f).keys.length = f.keys.length ∧
    (f.WF → 1 ≤ f.k → ∀ key, Test sum128 (Reset f) key = some false) := by
  refine ⟨?_, rfl, rfl, rfl, by simp [Reset], ?_⟩
  · intro b hb
    simp only [Reset, List.mem_map, Nat.and_zero] at hb
    obtain ⟨_, _, h⟩ := hb
    exact h.symm
  · intro hf hk key
    obtain ⟨b, hb⟩ := Test_isSome sum128 (Reset f) (Reset_WF f hf) key
    cases b with
    | false => exact hb
    | true =>
      rw [Test_true_iff] at hb
      have h0 := hb 0 (by show 0 < f.k; omega)
      unfold probeBit probeAt at h0
      cases hloc : location (baseHash sum128 key) 0 with
      | none => simp [hloc] at h0
      | some loc =>
        simp only [hloc, bitAt_Reset] at h0
        exact Bool.noConfusion h0

/-- Witness of C7 (amended) on `realAB` under murmur3. -/
theorem reset_clears_witness :
    realAB.WF ∧ 1 ≤ realAB.k ∧
    (∀ b, b ∈ (Reset realAB).keys → b = 0) ∧ KeySize (Reset realAB) = 0 ∧
    Cap (Reset realAB) = Cap realAB ∧ (Reset realAB).k = realAB.k ∧
    (Reset realAB).keys.length = realAB.keys.length ∧
    (∀ key, Test murmur3Sum128 (Reset realAB) key = some false) :=
  ⟨by decide, by decide, (reset_clears murmur3Sum128 realAB).1,
    (reset_clears murmur3Sum128 realAB).2.1, (reset_clears murmur3Sum128 realAB).2.2.1,
    (reset_clears murmur3Sum128 realAB).2.2.2.1,
    (reset_clears murmur3Sum128 realAB).2.2.2.2.1,
    (reset_clears murmur3Sum128 realAB).2.2.2.2.2 (by decide) (by decide)⟩

/-- C8: `MergeInPlace` returns an error exactly when a precondition fails, and
the checks run in order: differing capacities give the size-mismatch error
whatever the rest; equal capacities with differing hash counts give the
hash-count-mismatch error (its text is built from `f.m` and `g.m`) whatever the
flag of `g`; otherwise a concurrent `g` gives the unsupported-source error; in
every remaining case the call returns `nil`. -/
theorem merge_error_iff (f g : Filter) (hf : f.keys.length = f.m)
    (hg : g.keys.length = g.m) :
    ∃ f1 e, MergeInPlace f g = some (f1, e) ∧
      (e ≠ none ↔ (f.m ≠ g.m ∨ f.k ≠ g.k ∨ g.concurrent = true)) ∧
      (f.m ≠ g.m → e = some (mMismatch f.m g.m)) ∧
      (f.m = g.m → f.k ≠ g.k → e = some (kMismatch f.m g.m)) ∧
      (f.m = g.m → f.k = g.k → g.concurrent = true → e = some concurrentSource) ∧
      (f.m = g.m → f.k = g.k → g.concurrent = false → e = none) := by
  by_cases hm : f.m = g.m
  · by_cases hk : f.k = g.k
    · cases hc : g.concurrent with
      | true =>
        refine ⟨f, some concurrentSource, ?_, ?_, ?_, ?_, ?_, ?_⟩
        · unfold MergeInPlace
          simp only [hm, hk, hc, ne_eq, not_true_eq_false, if_false, if_true]
        · simp [hm, hk]
        · intro h; exact absurd hm h
        · intro _ h; exact absurd hk h
        · intro _ _ _; rfl
        · intro _ _ h; exact Bool.noConfusion h
      | false =>
        obtain ⟨f1, h1⟩ := MergeInPlace_isSome f g hm hk hc (by omega)
        refine ⟨f1, none, h1, ?_, ?_, ?_, ?_, ?_⟩
        · simp [hm, hk]
        · intro h; exact absurd hm h
        · intro _ h; exact absurd hk h
        · intro _ _ h; exact Bool.noConfusion h
        · intro _ _ _; rfl
    · refine ⟨f, some (kMismatch f.m g.m), ?_, ?_, ?_, ?_, ?_, ?_⟩
      · unfold MergeInPlace
        simp only [hm, hk, ne_eq, not_true_eq_false, not_false_eq_true, if_false, if_true]
      · simp [hk]
      · intro h; exact absurd hm h
      · intro _ _; rfl
      · intro _ h; exact absurd h hk
      · intro _ h; exact absurd h hk
  · refine ⟨f, some (mMismatch f.m g.m), ?_, ?_, ?_, ?_, ?_, ?_⟩
    · unfold MergeInPlace
      simp only [hm, ne_eq, not_false_eq_true, if_true]
    · simp [hm]
    · intro _; rfl
    · intro h; exact absurd h hm
    · intro h; exact absurd h hm
    · intro h; exact absurd h hm

/-- Witness of C8 on `sampleA` and the concurrent `sampleC`. -/
theorem merge_error_iff_witness :
    sampleA.keys.length = sampleA.m ∧ sampleC.keys.length = sampleC.m ∧
    ∃ f1 e, MergeInPlace sampleA sampleC = some (f1, e) ∧
      (e ≠ none ↔ (sampleA.m ≠ sampleC.m ∨ sampleA.k ≠ sampleC.k ∨
        sampleC.concurrent = true)) ∧
      (sampleA.m ≠ sampleC.m → e = some (mMismatch sampleA.m sampleC.m)) ∧
      (sampleA.m = sampleC.m → sampleA.k ≠ sampleC.k →
        e = some (kMismatch sampleA.m sampleC.m)) ∧
      (sampleA.m = sampleC.m → sampleA.k = sampleC.k → sampleC.concurrent = true →
        e = some concurrentSource) ∧
      (sampleA.m = sampleC.m → sampleA.k = sampleC.k → sampleC.concurrent = false →
        e = none) :=
  ⟨by decide, by decide, merge_error_iff sampleA sampleC (by decide) (by decide)⟩

/-- C9: `MergeInPlace` is atomic on failure. Whenever the call returns an
error the receiver is exactly what it was before (bit array, inserted count,
capacity, hash count). The argument `g` is only read; when `g` is the receiver
itself the call leaves it unchanged as well, with or without an error. -/
theorem merge_atomic_on_error (f g f1 : Filter) (e : String)
    (h : MergeInPlace f g = some (f1, some e)) :
    f1 = f ∧ f1.keys = f.keys ∧ KeySize f1 = KeySize f ∧ Cap f1 = Cap f ∧ f1.k = f.k ∧
    ∀ g1 e1, MergeInPlace g g = some (g1, e1) → g1 = g := by
  have h1 : f1 = f := MergeInPlace_error f g f1 e h
  subst h1
  exact ⟨rfl, rfl, rfl, rfl, rfl, fun g1 e1 hg => MergeInPlace_self g g1 e1 hg⟩

/-- Witness of C9: merging the concurrent `sampleC` into `sampleA` is refused. -/
theorem merge_atomic_on_error_witness :
    MergeInPlace sampleA sampleC = some (sampleA, some concurrentSource) ∧
    (sampleA = sampleA ∧ sampleA.keys = sampleA.keys ∧ KeySize sampleA = KeySize sampleA ∧
      Cap sampleA = Cap sampleA ∧ sampleA.k = sampleA.k ∧
      ∀ g1 e1, MergeInPlace sampleC sampleC = some (g1, e1) → g1 = sampleC) :=
  ⟨rfl, merge_atomic_on_error sampleA sampleC sampleA concurrentSource rfl⟩

/-- C10: effect of a successful merge. When `f.MergeInPlace(g)` returns `nil`,
the array keeps its length, every byte `i` of it is the old byte OR-ed with
`g.keys[i]`, and `KeySize()`, `Cap()` and the hash count are unchanged. -/
theorem merge_success_effect (f g f1 : Filter)
    (h : MergeInPlace f g = some (f1, none)) :
    f1.keys.length = f.keys.length ∧
    (∀ i, i < f.keys.length → ∃ a b, f.keys[i]? = some a ∧ g.keys[i]? = some b ∧
      f1.keys[i]? = some (a ||| b)) ∧
    KeySize f1 = KeySize f ∧ Cap f1 = Cap f ∧ f1.k = f.k := by
  obtain ⟨_, _, _, hl⟩ := MergeInPlace_nil f g f1 h
  obtain ⟨hm, hn, _, hk, _, hlen, _, hmid, _⟩ := mergeLoop_props g _ _ f f1 hl
  exact ⟨hlen, fun i hi => hmid i (by omega) (by omega), hn, hm, hk⟩

/-- Witness of C10: `sampleB` merged into `sampleA` gives `sampleAB`. -/
theorem merge_success_effect_witness :
    MergeInPlace sampleA sampleB = some (sampleAB, none) ∧
    sampleAB.keys.length = sampleA.keys.length ∧
    (∀ i, i < sampleA.keys.length → ∃ a b, sampleA.keys[i]? = some a ∧
      sampleB.keys[i]? = some b ∧ sampleAB.keys[i]? = some (a ||| b)) ∧
    KeySize sampleAB = KeySize sampleA ∧ Cap sampleAB = Cap sampleA ∧
    sampleAB.k = sampleA.k :=
  ⟨by decide, merge_success_effect sampleA sampleB sampleAB (by decide)⟩

/-! ## Counting, batches and typed wrappers -/

theorem run_adds_count (sum128 : List Nat → Nat × Nat) :
    ∀ (keys : List (List Nat)) (f : Filter), f.WF → f.n < u64 →
      ∃ f1, run sum128 f (keys.map Op.add) = some f1 ∧
        f1.n = (f.n + keys.length) % u64 ∧ f1.WF := by
  intro keys
  induction keys with
  | nil =>
    intro f hf hlt
    refine ⟨_, rfl, ?_, hf⟩
    rw [List.length_nil, Nat.add_zero, Nat.mod_eq_of_lt hlt]
  | cons key keys ih =>
    intro f hf _
    obtain ⟨f2, h2⟩ := Add_isSome sum128 f hf key
    obtain ⟨_, hn, _⟩ := Add_props sum128 f f2 key h2
    have hlt2 : f2.n < u64 := by
      rw [hn]; exact Nat.mod_lt _ (by decide)
    obtain ⟨f1, h1, hn1, hw1⟩ := ih f2 (Add_WF sum128 f f2 key hf h2) hlt2
    refine ⟨f1, ?_, ?_, hw1⟩
    · simp only [List.map_cons, run, step, h2]
      exact h1
    · rw [hn1, hn, Nat.mod_add_mod, List.length_cons]
      congr 1
      omega

theorem AddBatch_eq_run (sum128 : List Nat → Nat × Nat) :
    ∀ (keys : List (List Nat)) (f : Filter),
      AddBatch sum128 f keys = run sum128 f (keys.map Op.add) := by
  intro keys
  induction keys with
  | nil => intro f; rfl
  | cons key keys ih =>
    intro f
    rw [AddBatch_cons]
    simp only [List.map_cons, run, step]
    cases Add sum128 f key with
    | none => rfl
    | some f2 => exact ih f2

theorem uint16ToBytes_eq (num : Nat) :
    uint16ToBytes num = [num % 256, (num >>> 8) % 256] := rfl

theorem uint32ToBytes_eq (num : Nat) :
    uint32ToBytes num =
      [num % 256, (num >>> 8) % 256, (num >>> 16) % 256, (num >>> 24) % 256] := rfl

theorem uint64ToBytes_eq (num : Nat) :
    uint64ToBytes num =
      [num % 256, (num >>> 8) % 256, (num >>> 16) % 256, (num >>> 24) % 256,
        (num >>> 32) % 256, (num >>> 40) % 256, (num >>> 48) % 256, (num >>> 56) % 256] := rfl

theorem mod_256_eq_and (x : Nat) : x % 256 = x &&& 255 :=
  (Nat.and_pow_two_sub_one_eq_mod x 8).symm

theorem encodeAll_eq_map (enc : Nat → List Nat) (numArr : List Nat) :
    encodeAll enc numArr = numArr.map enc := by
  induction numArr with
  | nil => rfl
  | cons num rest ih => simp only [encodeAll, List.map_cons, ih]

theorem Test_after_Add (sum128 : List Nat → Nat × Nat) (f : Filter) (hf : f.WF)
    (data : List Nat) :
    ∃ f1, Add sum128 f data = some f1 ∧ Test sum128 f1 data = some true := by
  obtain ⟨f1, h1⟩ := Add_isSome sum128 f hf data
  refine ⟨f1, h1, ?_⟩
  obtain ⟨_, _, _, hk, _, _, _, hp⟩ := Add_props sum128 f f1 data h1
  rw [Test_true_iff]
  intro i hi
  rw [hk] at hi
  exact hp i hi

theorem call_eq_step (sum128 : List Nat → Nat × Nat) (f : Filter) (c : Call) :
    call sum128 f c = step sum128 f c.toOp := by
  cases c <;> rfl

theorem runCalls_eq_run (sum128 : List Nat → Nat × Nat) :
    ∀ (calls : List Call) (f : Filter),
      runCalls sum128 f calls = run sum128 f (calls.map Call.toOp) := by
  intro calls
  induction calls with
  | nil => intro f; rfl
  | cons c cs ih =>
    intro f
    simp only [runCalls, List.map_cons, run, call_eq_step]
    cases step sum128 f c.toOp with
    | none => rfl
    | some f1 => exact ih f1

theorem step_fields (sum128 : List Nat → Nat × Nat) (f f1 : Filter) (op : Op)
    (h : step sum128 f op = some f1) :
    f1.m = f.m ∧ f1.k = f.k ∧ f1.keys.length = f.keys.length := by
  cases op with
  | add data =>
    obtain ⟨hm, _, _, hk, _, hlen, _⟩ := Add_props sum128 f f1 data h
    exact ⟨hm, hk, hlen⟩
  | addBatch dataArr =>
    obtain ⟨hm, _, hk, _, hlen, _⟩ := AddBatch_props sum128 dataArr f f1 h
    exact ⟨hm, hk, hlen⟩
  | reset =>
    simp only [step, Option.some.injEq] at h
    subst h
    exact ⟨rfl, rfl, by simp [Reset]⟩
  | merge g =>
    simp only [step] at h
    cases hm : MergeInPlace f g with
    | none => simp [hm] at h
    | some p =>
      obtain ⟨f2, e⟩ := p
      simp only [hm, Option.map_some', Option.some.injEq] at h
      subst h
      obtain ⟨h1, _, _, h2, _, h3, _⟩ := MergeInPlace_fields f g f2 e hm
      exact ⟨h1, h2, h3⟩

theorem run_fields (sum128 : List Nat → Nat × Nat) :
    ∀ (ops : List Op) (f f1 : Filter), run sum128 f ops = some f1 →
      f1.m = f.m ∧ f1.k = f.k ∧ f1.keys.length = f.keys.length := by
  intro ops
  induction ops with
  | nil =>
    intro f f1 h
    simp only [run, Option.some.injEq] at h
    subst h
    exact ⟨rfl, rfl, rfl⟩
  | cons op ops ih =>
    intro f f1 h
    unfold run at h
    cases hs : step sum128 f op with
    | none => simp [hs] at h
    | some f2 =>
      simp only [hs] at h
      obtain ⟨a1, a2, a3⟩ := step_fields sum128 f f2 op hs
      obtain ⟨b1, b2, b3⟩ := ih f2 f1 h
      exact ⟨b1.trans a1, b2.trans a2, b3.trans a3⟩

theorem MergeInPlace_total (f g : Filter) (hf : f.keys.length = f.m)
    (hg : g.keys.length = g.m) : ∃ p, MergeInPlace f g = some p := by
  by_cases hm : f.m = g.m
  · by_cases hk : f.k = g.k
    · cases hc : g.concurrent with
      | true =>
        refine ⟨(f, some concurrentSource), ?_⟩
        unfold MergeInPlace
        simp only [hm, hk, hc, ne_eq, not_true_eq_false, if_false, if_true]
      | false =>
        obtain ⟨f1, h1⟩ := MergeInPlace_isSome f g hm hk hc (by omega)
        exact ⟨_, h1⟩
    · refine ⟨(f, some (kMismatch f.m g.m)), ?_⟩
      unfold MergeInPlace
      simp only [hm, hk, ne_eq, not_true_eq_false, not_false_eq_true, if_false, if_true]
  · refine ⟨(f, some (mMismatch f.m g.m)), ?_⟩
    unfold MergeInPlace
    simp only [hm, ne_eq, not_false_eq_true, if_true]

theorem call_isSome (sum128 : List Nat → Nat × Nat) (f : Filter) (hf : f.WF) (c : Call)
    (hc : argsSized [c]) : ∃ f1, call sum128 f c = some f1 := by
  cases c with
  | add data => exact Add_isSome sum128 f hf data
  | addString s => exact Add_isSome sum128 f hf _
  | addUInt16 num => exact Add_isSome sum128 f hf _
  | addUInt32 num => exact Add_isSome sum128 f hf _
  | addUInt64 num => exact Add_isSome sum128 f hf _
  | addBatch dataArr => exact AddBatch_isSome sum128 dataArr f hf
  | addUint16Batch numArr => exact AddBatch_isSome sum128 _ f hf
  | addUint32Batch numArr => exact AddBatch_isSome sum128 _ f hf
  | addUin64Batch numArr => exact AddBatch_isSome sum128 _ f hf
  | reset => exact ⟨_, rfl⟩
  | mergeInPlace g =>
    obtain ⟨p, hp⟩ := MergeInPlace_total f g hf.2.2 hc.1
    exact ⟨p.1, by simp only [call, hp, Option.map_some']⟩

theorem argsSized_cons (c : Call) (cs : List Call) (h : argsSized (c :: cs)) :
    argsSized [c] ∧ argsSized cs := by
  cases c <;> simp_all [argsSized]

theorem runCalls_isSome (sum128 : List Nat → Nat × Nat) :
    ∀ (calls : List Call) (f : Filter), f.WF → argsSized calls →
      ∃ f1, runCalls sum128 f calls = some f1 := by
  intro calls
  induction calls with
  | nil => intro f _ _; exact ⟨f, rfl⟩
  | cons c cs ih =>
    intro f hf hargs
    obtain ⟨h1, h2⟩ := argsSized_cons c cs hargs
    obtain ⟨f2, hc⟩ := call_isSome sum128 f hf c h1
    have hw : f2.WF := step_WF sum128 f f2 c.toOp hf (by rw [← call_eq_step]; exact hc)
    obtain ⟨f1, hr⟩ := ih f2 hw h2
    exact ⟨f1, by simp only [runCalls, hc]; exact hr⟩

theorem getElem?_eq_some_getD (h : List Nat) (i : Nat) (hi : i < h.length) :
    h[i]? = some (h.getD i 0) := by
  rw [List.getD_eq_getElem?_getD, List.getElem?_eq_getElem hi]
  rfl

theorem second_index_eq (i : Nat) :
    (2 + (((i + (i &&& 1)) % u64) &&& 3) / 2) % u64 = 2 + ((i + i % 2) % 4) / 2 := by
  have e1 : i &&& 1 = i % 2 := Nat.and_one_is_mod i
  have e2 : ((i + i % 2) % u64) &&& 3 = ((i + i % 2) % u64) % 4 :=
    Nat.and_pow_two_sub_one_eq_mod _ 2
  have e3 : ((i + i % 2) % u64) % 4 = (i + i % 2) % 4 :=
    Nat.mod_mod_of_dvd _ (by decide)
  rw [e1, e2, e3]
  apply Nat.mod_eq_of_lt
  have : (i + i % 2) % 4 < 4 := Nat.mod_lt _ (by decide)
  have : 2 + (i + i % 2) % 4 / 2 < 4 := by omega
  exact Nat.lt_trans this (by decide)

/-! ## The claims, continued -/

/-- C11, as stated, fails at the end of the counter: after `2^64 - 1` calls of
`Add` on the fresh filter `sampleNew` the count is `2^64 - 1`, and one more
`Add` wraps the `uint64` field `n` to `0` instead of adding one. -/
theorem keysize_wraps :
    ∃ f, run toySum128 sampleNew ((List.replicate (2 ^ 64 - 1) [0, 0]).map Op.add) = some f ∧
      KeySize f = 2 ^ 64 - 1 ∧
      ∃ f1, Add toySum128 f [0, 0] = some f1 ∧ KeySize f1 = 0 ∧
        KeySize f1 ≠ KeySize f + 1 := by
  obtain ⟨f, hrun, hn, hw⟩ := run_adds_count toySum128 (List.replicate (2 ^ 64 - 1) [0, 0])
    sampleNew (by decide) (by decide)
  rw [List.length_replicate] at hn
  have hn1 : f.n = 2 ^ 64 - 1 := by rw [hn]; decide
  obtain ⟨f1, h1⟩ := Add_isSome toySum128 f hw [0, 0]
  obtain ⟨_, hn2, _⟩ := Add_props toySum128 f f1 [0, 0] h1
  have hn3 : f1.n = 0 := by rw [hn2, hn1]; decide
  refine ⟨f, hrun, hn1, f1, h1, hn3, ?_⟩
  show f1.n ≠ f.n + 1
  rw [hn3, hn1]; decide

/-- C11 (amended): `KeySize` counts calls of `Add`, not distinct keys, in
`uint64` arithmetic. On a well-formed filter `Add(key)` completes and
`KeySize()` afterwards is the count before plus one modulo `2^64`, so exactly
one more whenever the count before is below `2^64 - 1`, whatever the key; and
after `j < 2^64` calls of `Add` on a filter whose count is `0` (fresh) or on a
filter that was just reset, `KeySize()` is `j`. -/
theorem keysize_counts_adds (sum128 : List Nat → Nat × Nat) (f : Filter) (hf : f.WF) :
    (∀ key, ∃ f1, Add sum128 f key = some f1 ∧ KeySize f1 = (KeySize f + 1) % u64 ∧
      (KeySize f + 1 < u64 → KeySize f1 = KeySize f + 1)) ∧
    (∀ keys : List (List Nat), keys.length < u64 →
      (KeySize f = 0 →
        ∃ f1, run sum128 f (keys.map Op.add) = some f1 ∧ KeySize f1 = keys.length) ∧
      (∃ f1, run sum128 (Reset f) (keys.map Op.add) = some f1 ∧
        KeySize f1 = keys.length)) := by
  constructor
  · intro key
    obtain ⟨f1, h1⟩ := Add_isSome sum128 f hf key
    obtain ⟨_, hn, _⟩ := Add_props sum128 f f1 key h1
    exact ⟨f1, h1, hn, fun hlt => by show f1.n = f.n + 1; rw [hn]; exact Nat.mod_eq_of_lt hlt⟩
  · intro keys hlen
    constructor
    · intro h0
      have h0n : f.n = 0 := h0
      obtain ⟨f1, h1, hn, _⟩ := run_adds_count sum128 keys f hf (by rw [h0n]; decide)
      refine ⟨f1, h1, ?_⟩
      show f1.n = keys.length
      rw [hn, h0n, Nat.zero_add]
      exact Nat.mod_eq_of_lt hlen
    · obtain ⟨f1, h1, hn, _⟩ := run_adds_count sum128 keys (Reset f) (Reset_WF f hf)
        (by show 0 < u64; decide)
      refine ⟨f1, h1, ?_⟩
      show f1.n = keys.length
      rw [hn]
      show (0 + keys.length) % u64 = keys.length
      rw [Nat.zero_add]
      exact Nat.mod_eq_of_lt hlen

/-- Witness of C11 (amended) on `sampleA`. -/
theorem keysize_counts_adds_witness :
    sampleA.WF ∧
    (∀ key, ∃ f1, Add toySum128 sampleA key = some f1 ∧
      KeySize f1 = (KeySize sampleA + 1) % u64 ∧
      (KeySize sampleA + 1 < u64 → KeySize f1 = KeySize sampleA + 1)) ∧
    (∀ keys : List (List Nat), keys.length < u64 →
      (KeySize sampleA = 0 →
        ∃ f1, run toySum128 sampleA (keys.map Op.add) = some f1 ∧
          KeySize f1 = keys.length) ∧
      (∃ f1, run toySum128 (Reset sampleA) (keys.map Op.add) = some f1 ∧
        KeySize f1 = keys.length)) :=
  ⟨by decide, keysize_counts_adds toySum128 sampleA (by decide)⟩

/-- C12, as stated, fails in its last clause. After `2^64 - 1` calls of `Add`
on the fresh filter `sampleNew` the count is `2^64 - 1`, and `AddBatch` of one
key then leaves `KeySize()` at `0`: the count did not grow by the length of the
batch. On the filter `zeroCap` that `New(2^64 - 1, 1, false)` returns,
`AddBatch` of one key does not complete at all. -/
theorem addbatch_keysize_wraps :
    (∃ f, run murmur3Sum128 sampleNew ((List.replicate (2 ^ 64 - 1) [0]).map Op.add) = some f ∧
      KeySize f = 2 ^ 64 - 1 ∧
      ∃ f1, AddBatch murmur3Sum128 f [[0]] = some f1 ∧ KeySize f1 = 0 ∧
        KeySize f1 ≠ KeySize f + [[0]].length) ∧
    New noLog (2 ^ 64 - 1) 1 false = some zeroCap ∧
    AddBatch murmur3Sum128 zeroCap [[5]] = none := by
  refine ⟨?_, New_overflow noLog 1 false, by decide⟩
  obtain ⟨f, hrun, hn, hw⟩ := run_adds_count murmur3Sum128 (List.replicate (2 ^ 64 - 1) [0])
    sampleNew (by decide) (by decide)
  rw [List.length_replicate] at hn
  have hn1 : f.n = 2 ^ 64 - 1 := by rw [hn]; decide
  obtain ⟨f1, hrun1, hn2, _⟩ := run_adds_count murmur3Sum128 [[0]] f hw
    (by rw [hn1]; decide)
  have hn3 : f1.n = 0 := by rw [hn2, hn1]; decide
  refine ⟨f, hrun, hn1, f1, ?_, hn3, ?_⟩
  · rw [AddBatch_eq_run]; exact hrun1
  · show f1.n ≠ f.n + [[0]].length
    rw [hn3, hn1]; decide

/-- C12 (amended): `AddBatch` is sequential `Add`. For every filter and every
list of keys, `AddBatch(keys)` gives exactly the state (or the panic) of
calling `Add` on each key in order; on a well-formed filter, whose count is
below `2^64` as every `uint64` is, it completes and `KeySize()` grows by the
length of the list modulo `2^64`, so by exactly the length whenever the sum
stays below `2^64`. -/
theorem addbatch_refines_adds (sum128 : List Nat → Nat × Nat) (f : Filter)
    (keys : List (List Nat)) :
    AddBatch sum128 f keys = run sum128 f (keys.map Op.add) ∧
    (f.WF → f.n < u64 →
      ∃ f1, AddBatch sum128 f keys = some f1 ∧
        KeySize f1 = (KeySize f + keys.length) % u64 ∧
        (KeySize f + keys.length < u64 → KeySize f1 = KeySize f + keys.length)) := by
  refine ⟨AddBatch_eq_run sum128 keys f, ?_⟩
  intro hf hlt
  obtain ⟨f1, h1, hn, _⟩ := run_adds_count sum128 keys f hf hlt
  refine ⟨f1, ?_, hn, ?_⟩
  · rw [AddBatch_eq_run]; exact h1
  · intro hsum
    show f1.n = f.n + keys.length
    rw [hn]; exact Nat.mod_eq_of_lt hsum

/-- Witness of C12 (amended): a batch of two keys on `realA` under murmur3. -/
theorem addbatch_refines_adds_witness :
    realA.WF ∧ realA.n < u64 ∧
    AddBatch murmur3Sum128 realA [[12], [4]] =
      run murmur3Sum128 realA ([[12], [4]].map Op.add) ∧
    ∃ f1, AddBatch murmur3Sum128 realA [[12], [4]] = some f1 ∧
      KeySize f1 = (KeySize realA + [[12], [4]].length) % u64 ∧
      (KeySize realA + [[12], [4]].length < u64 →
        KeySize f1 = KeySize realA + [[12], [4]].length) :=
  ⟨by decide, by decide,
    (addbatch_refines_adds murmur3Sum128 realA [[12], [4]]).1,
    (addbatch_refines_adds murmur3Sum128 realA [[12], [4]]).2 (by decide) (by decide)⟩

/-- C13, as stated, fails in its consequence: on the filter `zeroCap` that
`New(2^64 - 1, 1, false)` returns, `AddUInt16`, `AddUInt32` and `AddUInt64`
index the empty array and do not complete, so no `TestUIntN` after them
returns true. -/
theorem typed_add_out_of_range :
    New noLog (2 ^ 64 - 1) 1 false = some zeroCap ∧
    AddUInt16 murmur3Sum128 zeroCap 16 = none ∧
    AddUInt32 murmur3Sum128 zeroCap 32 = none ∧
    AddUInt64 murmur3Sum128 zeroCap 64 = none :=
  ⟨New_overflow noLog 1 false, by decide, by decide, by decide⟩

/-- C13 (amended): the typed variants are the byte API on little-endian encodings. The
encoders give the bytes `(x >> 8*i) & 0xFF` for `i` below 2, 4 and 8;
`AddUIntN` and `TestUIntN` are `Add` and `Test` of the encoded value; the typed
batch methods are `AddBatch` of the encoded values; and on a well-formed
filter `TestUIntN(x)` is true right after `AddUIntN(x)`. -/
theorem typed_variants_little_endian (sum128 : List Nat → Nat × Nat) (f : Filter) :
    (∀ x, uint16ToBytes x = (List.range 2).map (fun i => (x >>> (8 * i)) &&& 0xFF)) ∧
    (∀ x, uint32ToBytes x = (List.range 4).map (fun i => (x >>> (8 * i)) &&& 0xFF)) ∧
    (∀ x, uint64ToBytes x = (List.range 8).map (fun i => (x >>> (8 * i)) &&& 0xFF)) ∧
    (∀ x, AddUInt16 sum128 f x = Add sum128 f (uint16ToBytes x) ∧
      TestUInt16 sum128 f x = Test sum128 f (uint16ToBytes x)) ∧
    (∀ x, AddUInt32 sum128 f x = Add sum128 f (uint32ToBytes x) ∧
      TestUInt32 sum128 f x = Test sum128 f (uint32ToBytes x)) ∧
    (∀ x, AddUInt64 sum128 f x = Add sum128 f (uint64ToBytes x) ∧
      TestUInt64 sum128 f x = Test sum128 f (uint64ToBytes x)) ∧
    (∀ xs, AddUint16Batch sum128 f xs = AddBatch sum128 f (xs.map uint16ToBytes)) ∧
    (∀ xs, AddUint32Batch sum128 f xs = AddBatch sum128 f (xs.map uint32ToBytes)) ∧
    (∀ xs, AddUin64Batch sum128 f xs = AddBatch sum128 f (xs.map uint64ToBytes)) ∧
    (f.WF → ∀ x,
      (∃ f1, AddUInt16 sum128 f x = some f1 ∧ TestUInt16 sum128 f1 x = some true) ∧
      (∃ f1, AddUInt32 sum128 f x = some f1 ∧ TestUInt32 sum128 f1 x = some true) ∧
      (∃ f1, AddUInt64 sum128 f x = some f1 ∧ TestUInt64 sum128 f1 x = some true)) := by
  refine ⟨?_, ?_, ?_, fun _ => ⟨rfl, rfl⟩, fun _ => ⟨rfl, rfl⟩, fun _ => ⟨rfl, rfl⟩,
    ?_, ?_, ?_, ?_⟩
  · intro x
    simp [uint16ToBytes_eq, List.range, List.range.loop, mod_256_eq_and]
  · intro x
    simp [uint32ToBytes_eq, List.range, List.range.loop, mod_256_eq_and]
  · intro x
    simp [uint64ToBytes_eq, List.range, List.range.loop, mod_256_eq_and]
  · intro xs; unfold AddUint16Batch; rw [encodeAll_eq_map]
  · intro xs; unfold AddUint32Batch; rw [encodeAll_eq_map]
  · intro xs; unfold AddUin64Batch; rw [encodeAll_eq_map]
  · intro hf x
    exact ⟨Test_after_Add sum128 f hf _, Test_after_Add sum128 f hf _,
      Test_after_Add sum128 f hf _⟩

/-- Witness of C13 (amended) on `realA` under murmur3: the well-formedness
premise of the last part holds there. -/
theorem typed_variants_little_endian_witness :
    realA.WF ∧ uint16ToBytes 258 = [2, 1] ∧
    AddUint16Batch murmur3Sum128 realA [1, 2, 3] =
      AddBatch murmur3Sum128 realA ([1, 2, 3].map uint16ToBytes) ∧
    ∀ x,
      (∃ f1, AddUInt16 murmur3Sum128 realA x = some f1 ∧
        TestUInt16 murmur3Sum128 f1 x = some true) ∧
      (∃ f1, AddUInt32 murmur3Sum128 realA x = some f1 ∧
        TestUInt32 murmur3Sum128 f1 x = some true) ∧
      (∃ f1, AddUInt64 murmur3Sum128 realA x = some f1 ∧
        TestUInt64 murmur3Sum128 f1 x = some true) :=
  ⟨by decide, by decide,
    (typed_variants_little_endian murmur3Sum128 realA).2.2.2.2.2.2.1 [1, 2, 3],
    (typed_variants_little_endian murmur3Sum128 realA).2.2.2.2.2.2.2.2.2 (by decide)⟩

/-- C14: `Test` is the conjunction over the `k` probes. On a well-formed filter
`Test(key)` completes and returns the conjunction, over `i` below `k`, of "the
bit addressed by probe `i` of the key is set"; so it returns true exactly when
all `k` bits are set, and the early return changes nothing. -/
theorem test_is_conjunction (sum128 : List Nat → Nat × Nat) (f : Filter) (hf : f.WF)
    (key : List Nat) :
    Test sum128 f key = some ((List.range f.k).all (fun i => probeBit sum128 f key i)) ∧
    (Test sum128 f key = some true ↔ ∀ i, i < f.k → probeBit sum128 f key i = true) := by
  refine ⟨?_, Test_true_iff sum128 f key⟩
  obtain ⟨b, hb⟩ := Test_isSome sum128 f hf key
  rw [hb]
  congr 1
  have hiff : b = true ↔ ∀ i, i < f.k → probeBit sum128 f key i = true := by
    rw [← Test_true_iff, hb]
    simp
  rw [Bool.eq_iff_iff, hiff, List.all_eq_true]
  simp only [List.mem_range]

/-- Witness of C14 on `sampleAB` and the key `[0, 8]`. -/
theorem test_is_conjunction_witness :
    sampleAB.WF ∧
    Test toySum128 sampleAB [0, 8] =
      some ((List.range sampleAB.k).all (fun i => probeBit toySum128 sampleAB [0, 8] i)) ∧
    (Test toySum128 sampleAB [0, 8] = some true ↔
      ∀ i, i < sampleAB.k → probeBit toySum128 sampleAB [0, 8] i = true) :=
  ⟨by decide, test_is_conjunction toySum128 sampleAB (by decide) [0, 8]⟩

/-- C15: capacity and hash count are fixed after construction. For a filter
returned by `New`, after any sequence of calls of the mutating API (byte and
typed adds, batches, `Reset`, `MergeInPlace` with or without an error) `Cap()`
is the value right after `New` and the hash count is the `k` given to `New`,
so a capacity that is a power of two stays one; and when the capacity is not
zero it is a power of two and every such sequence completes. -/
theorem capacity_fixed (L : Nat → Nat) (sum128 : List Nat → Nat × Nat) (size k : Nat)
    (c : Bool) (f0 : Filter) (hnew : New L size k c = some f0) :
    (∀ calls f, runCalls sum128 f0 calls = some f →
      Cap f = Cap f0 ∧ f.k = k ∧ ((∃ e, Cap f0 = 2 ^ e) → ∃ e, Cap f = 2 ^ e)) ∧
    (0 < Cap f0 → (∃ e, Cap f0 = 2 ^ e) ∧
      ∀ calls, argsSized calls →
        ∃ f, runCalls sum128 f0 calls = some f ∧ Cap f = Cap f0 ∧ ∃ e, Cap f = 2 ^ e) := by
  obtain ⟨_, _, _, hk0, _⟩ := New_props L size k c f0 hnew
  have hfix : ∀ calls f, runCalls sum128 f0 calls = some f → Cap f = Cap f0 ∧ f.k = k := by
    intro calls f h
    rw [runCalls_eq_run] at h
    obtain ⟨hm, hk, _⟩ := run_fields sum128 _ f0 f h
    exact ⟨hm, hk.trans hk0⟩
  constructor
  · intro calls f h
    obtain ⟨hm, hk⟩ := hfix calls f h
    exact ⟨hm, hk, fun hp => by rw [hm]; exact hp⟩
  · intro hcap
    have hw : f0.WF := New_WF L size k c f0 hnew hcap
    refine ⟨⟨f0.log2m, hw.1⟩, ?_⟩
    intro calls hargs
    obtain ⟨f, hf⟩ := runCalls_isSome sum128 calls f0 hw hargs
    obtain ⟨hm, _⟩ := hfix calls f hf
    exact ⟨f, hf, hm, f0.log2m, hm.trans hw.1⟩

/-- Witness of C15: `New(4, 2, false)` is `sampleNew`. -/
theorem capacity_fixed_witness :
    New noLog 4 2 false = some sampleNew ∧ 0 < Cap sampleNew ∧
    (∀ calls f, runCalls toySum128 sampleNew calls = some f →
      Cap f = Cap sampleNew ∧ f.k = 2 ∧
        ((∃ e, Cap sampleNew = 2 ^ e) → ∃ e, Cap f = 2 ^ e)) ∧
    ((∃ e, Cap sampleNew = 2 ^ e) ∧
      ∀ calls, argsSized calls →
        ∃ f, runCalls toySum128 sampleNew calls = some f ∧ Cap f = Cap sampleNew ∧
          ∃ e, Cap f = 2 ^ e) :=
  ⟨by decide, by decide,
    (capacity_fixed noLog toySum128 4 2 false sampleNew (by decide)).1,
    (capacity_fixed noLog toySum128 4 2 false sampleNew (by decide)).2 (by decide)⟩

/-- C16, as stated, fails: `New(2^64 - 1, 1, false)` returns a filter with an
empty array, and both `Add` and `Test` index it out of range on their first
probe. -/
theorem add_test_out_of_range :
    New noLog (2 ^ 64 - 1) 1 false =
      some { concurrent := false, m := 0, n := 0, log2m := 64, k := 1, keys := [] } ∧
    Add toySum128
      { concurrent := false, m := 0, n := 0, log2m := 64, k := 1, keys := [] } [] = none ∧
    Test toySum128
      { concurrent := false, m := 0, n := 0, log2m := 64, k := 1, keys := [] } [] = none :=
  ⟨New_overflow noLog 1 false, by decide, by decide⟩

/-- C16 (amended): `Add` and `Test` are total on filters of non-zero capacity.
For a filter that `New` returned with a non-zero capacity and any state reached
from it through the API, `Add(key)` and `Test(key)` complete on every key:
the base hashes are four, every probe index into them is in range, and every
byte index is below the length of the array. For every filter returned by
`New`, of any capacity, a `MergeInPlace` that passes its three checks against
a filter with one byte per unit of capacity completes without an
out-of-range access. -/
theorem add_test_total (L : Nat → Nat) (sum128 : List Nat → Nat × Nat) (size k : Nat)
    (c : Bool) (f0 f : Filter) (calls : List Call) (hnew : New L size k c = some f0)
    (hrun : runCalls sum128 f0 calls = some f) :
    (0 < Cap f0 → ∀ key,
      (∃ f1, Add sum128 f key = some f1) ∧ (∃ b, Test sum128 f key = some b) ∧
      (baseHash sum128 key).length = 4 ∧
      ∀ i, ∃ loc, location (baseHash sum128 key) i = some loc ∧
        (f.location loc).1 < f.keys.length) ∧
    (∀ g, g.keys.length = g.m → f.m = g.m → f.k = g.k → g.concurrent = false →
      ∃ f1, MergeInPlace f g = some (f1, none)) := by
  have hrun1 := hrun
  rw [runCalls_eq_run] at hrun1
  obtain ⟨hm, _, hlen⟩ := run_fields sum128 _ f0 f hrun1
  have hsz : f.keys.length = f.m := by
    rw [hlen, hm]; exact New_length L size k c f0 hnew
  constructor
  · intro hcap key
    have hw : f.WF := run_WF sum128 _ f0 f (New_WF L size k c f0 hnew hcap) hrun1
    refine ⟨Add_isSome sum128 f hw key, Test_isSome sum128 f hw key, rfl, ?_⟩
    intro i
    obtain ⟨loc, hloc⟩ := location_isSome (baseHash sum128 key) rfl i
    refine ⟨loc, hloc, ?_⟩
    rw [hsz]
    exact location_fst_lt f loc hw.pos hw.lt
  · intro g hg hmg hk hc
    exact MergeInPlace_isSome f g hmg hk hc (by omega)

/-- Witness of C16 (amended): `sampleNew`, one typed add, then the checks. -/
theorem add_test_total_witness :
    New noLog 4 2 false = some sampleNew ∧
    runCalls toySum128 sampleNew [Call.addUInt16 2064] = some sampleB ∧
    0 < Cap sampleNew ∧
    (∀ key,
      (∃ f1, Add toySum128 sampleB key = some f1) ∧
      (∃ b, Test toySum128 sampleB key = some b) ∧
      (baseHash toySum128 key).length = 4 ∧
      ∀ i, ∃ loc, location (baseHash toySum128 key) i = some loc ∧
        (sampleB.location loc).1 < sampleB.keys.length) ∧
    (∀ g, g.keys.length = g.m → sampleB.m = g.m → sampleB.k = g.k → g.concurrent = false →
      ∃ f1, MergeInPlace sampleB g = some (f1, none)) :=
  ⟨by decide, by decide, by decide,
    (add_test_total noLog toySum128 4 2 false sampleNew sampleB [Call.addUInt16 2064]
      (by decide) (by decide)).1 (by decide),
    (add_test_total noLog toySum128 4 2 false sampleNew sampleB [Call.addUInt16 2064]
      (by decide) (by decide)).2⟩

/-- C18: index derivation. For four base hashes `h` and every `i`,
`location(h, i)` is `(h[i mod 2] + i * h[2 + ((i + i mod 2) mod 4) / 2]) mod 2^64`:
the bit-mask indices of the code are the modulo indices of its comment, and
the second index is `2` or `3`. -/
theorem location_formula (h : List Nat) (hh : h.length = 4) (i : Nat) :
    location h i =
      some ((h.getD (i % 2) 0 + i * h.getD (2 + ((i + i % 2) % 4) / 2) 0) % u64) ∧
    i &&& 1 = i % 2 ∧
    2 + (((i + (i &&& 1)) % u64) &&& 3) / 2 = 2 + ((i + i % 2) % 4) / 2 ∧
    (2 + (((i + (i &&& 1)) % u64) &&& 3) / 2 = 2 ∨
      2 + (((i + (i &&& 1)) % u64) &&& 3) / 2 = 3) := by
  have e1 : i &&& 1 = i % 2 := Nat.and_one_is_mod i
  have e2 := second_index_eq i
  have hlt : (i + i % 2) % 4 < 4 := Nat.mod_lt _ (by decide)
  have e3 : 2 + (((i + (i &&& 1)) % u64) &&& 3) / 2 = 2 + ((i + i % 2) % 4) / 2 := by
    rw [← e2]
    symm
    apply Nat.mod_eq_of_lt
    have h3 := @Nat.and_le_right ((i + (i &&& 1)) % u64) 3
    have : 2 + (((i + (i &&& 1)) % u64) &&& 3) / 2 < 4 := by omega
    exact Nat.lt_trans this (by decide)
  refine ⟨?_, e1, e3, ?_⟩
  · have h1 : i % 2 < h.length := by omega
    have h2 : 2 + ((i + i % 2) % 4) / 2 < h.length := by omega
    unfold location
    rw [e2, e1, getElem?_eq_some_getD h _ h1, getElem?_eq_some_getD h _ h2]
    simp only [Nat.add_mod_mod]
  · rw [e3]; omega

/-- Witness of C18 on the base hashes `[10, 20, 30, 40]` and `i = 3`. -/
theorem location_formula_witness :
    [10, 20, 30, 40].length = 4 ∧ location [10, 20, 30, 40] 3 = some 110 ∧
    location [10, 20, 30, 40] 3 =
      some (([10, 20, 30, 40].getD (3 % 2) 0 +
        3 * [10, 20, 30, 40].getD (2 + ((3 + 3 % 2) % 4) / 2) 0) % u64) :=
  ⟨by decide, by decide, (location_formula [10, 20, 30, 40] (by decide) 3).1⟩

/-- C19: bit-address reduction. For a filter whose capacity `m` is a power of
two (below `2^64`) and every `h`, `Filter.location(h)` is
`((h / 8) mod m, h mod 8)`, so the byte index is below `m` and the bit offset
below `8`. -/
theorem location_reduction (f : Filter) (e : Nat) (hm : f.m = 2 ^ e) (he : e < 64)
    (h : Nat) :
    f.location h = ((h / 8) % f.m, h % 8) ∧ (f.location h).1 < f.m ∧
    (f.location h).2 < 8 := by
  have hpos : 0 < f.m := by rw [hm]; exact Nat.pos_pow_of_pos _ (by decide)
  have hlt : f.m < u64 := by rw [hm]; exact Nat.pow_lt_pow_right (by decide) he
  have h1 : (f.m + u64 - 1) % u64 = 2 ^ e - 1 := by
    have : f.m + u64 - 1 = (f.m - 1) + u64 := by omega
    rw [this, Nat.add_mod_right, Nat.mod_eq_of_lt (by omega), hm]
  have heq : f.location h = ((h / 8) % f.m, h % 8) := by
    show ((h / bitPerByte) &&& ((f.m + u64 - 1) % u64), h &&& mod7) = ((h / 8) % f.m, h % 8)
    rw [h1, Nat.and_pow_two_sub_one_eq_mod, hm]
    have h7 : h &&& mod7 = h % 8 := Nat.and_pow_two_sub_one_eq_mod h 3
    rw [h7]
    rfl
  rw [heq]
  exact ⟨rfl, Nat.mod_lt _ hpos, Nat.mod_lt _ (by decide)⟩

/-- Witness of C19 on `sampleA` (capacity `2 ^ 2`) and `h = 1234`. -/
theorem location_reduction_witness :
    sampleA.m = 2 ^ 2 ∧ 2 < 64 ∧
    sampleA.location 1234 = ((1234 / 8) % sampleA.m, 1234 % 8) ∧
    (sampleA.location 1234).1 < sampleA.m ∧ (sampleA.location 1234).2 < 8 :=
  ⟨by decide, by decide, location_reduction sampleA 2 (by decide) (by decide) 1234⟩

/-- C20 at the failing input: `sampleA` (capacity 4, hash count 2) merged with
`sampleK` (capacity 4, hash count 3) returns the hash-count error built from
the two capacities, "k's don't match: 4 != 4", not from the hash counts
2 and 3. -/
theorem merge_k_mismatch_text :
    sampleA.m = sampleK.m ∧ sampleA.k = 2 ∧ sampleK.k = 3 ∧
    MergeInPlace sampleA sampleK = some (sampleA, some "k\x27s don\x27t match: 4 != 4") ∧
    MergeInPlace sampleA sampleK ≠ some (sampleA, some "k\x27s don\x27t match: 2 != 3") := by
  decide

end Bloom
